import Mathlib

/-!
Verification development for the chatlab conversation orchestrator
(src/chatlab/chat.py).

The development shallowly embeds the streaming state machine of
Chat.__process_stream, the single-shot extractor Chat.__process_full_completion
and the dispatch logic of Chat.submit as pure Lean functions.  Python mutation
of self.messages is modelled by an explicit list of appended messages carried
through the computation; exceptions are modelled by explicit error values.

The helper classes AssistantMessageView and ToolArguments live in
chatlab/views.py, and the message constructors human / assistant_tool_calls in
chatlab/messaging.py; those files are not part of the provided sources, so the
corresponding definitions below are modelled from the spec (sections 3, 4.1 and
4.2) and are marked as such in their doc comments.  Everything else is
translated directly from src/chatlab/chat.py.
-/

/-- Modelled from the spec (section 4.2): the assistant turn builder
(AssistantMessageView in chatlab.views, not part of the provided sources).
It accumulates streamed free-text fragments and carries a finished flag.
Display and rendering are an external UI concern and are omitted. -/
structure AssistantMessageView where
  content : String := ""
  finished : Bool := false
deriving DecidableEq, Repr

/-- Modelled from the spec (section 4.2): append accumulates a text fragment. -/
def AssistantMessageView.append (v : AssistantMessageView) (s : String) : AssistantMessageView :=
  { v with content := v.content ++ s }

/-- Modelled from the spec (sections 3, 4.1): a tool-call accumulator
(ToolArguments in chatlab.views, not part of the provided sources): an uninterpreted
correlation id, the tool name, and the raw argument text built by concatenating
fragments in arrival order.  The custom render hook is display-only and omitted. -/
structure ToolArguments where
  id : String
  name : String
  arguments : String := ""
deriving DecidableEq, Repr

/-- Modelled from the spec (section 3): argument fragments are concatenated,
never parsed until complete. -/
def ToolArguments.append_arguments (ta : ToolArguments) (s : String) : ToolArguments :=
  { ta with arguments := ta.arguments ++ s }

/-- Function payload of a completed (non-streamed) tool call or legacy function
call, following the OpenAI response types used by chat.py. -/
structure FullFunctionCall where
  name : String
  arguments : String
deriving DecidableEq, Repr

/-- A completed (non-streamed) tool call: id plus function payload. -/
structure FullToolCall where
  id : String
  function : FullFunctionCall
deriving DecidableEq, Repr

/-- The message record of one non-streamed choice (ChatCompletionMessage):
optional text content, optional legacy function call, optional tool-call list. -/
structure FullMessage where
  content : Option String := none
  function_call : Option FullFunctionCall := none
  tool_calls : Option (List FullToolCall) := none
deriving DecidableEq, Repr

/-- One entry of the conversation history.  Modelled from the spec (section 3)
for the constructors produced by chatlab.messaging and chatlab.views (human,
assistant text, the legacy function-call request and result messages, the
tool-result message); the fullPayload constructor stands for the raw
message.model_dump() dict appended by Chat.__process_full_completion. -/
inductive Message where
  | system (content : String)
  | user (content : String)
  | assistant (content : String)
  | assistantToolCalls (calls : List ToolArguments)
  | assistantFunctionCall (name : String) (arguments : String)
  | functionResult (name : String) (content : String)
  | toolResult (id : String) (content : String)
  | fullPayload (message : FullMessage)
deriving DecidableEq, Repr

/-- Modelled from the spec (section 4.2): finalizing the builder yields one
assistant message holding the accumulated content. -/
def AssistantMessageView.get_message (v : AssistantMessageView) : Message :=
  Message.assistant v.content

/-- Streamed function fragment of one tool-call delta
(ChoiceDeltaToolCallFunction): optional name and optional arguments fragment. -/
structure ToolCallFunctionDelta where
  name : Option String := none
  arguments : Option String := none
deriving DecidableEq, Repr

/-- One streamed tool-call delta (ChoiceDeltaToolCall): positional index,
optional id, optional function fragment. -/
structure ToolCallDelta where
  index : Nat
  id : Option String := none
  function : Option ToolCallFunctionDelta := none
deriving DecidableEq, Repr

/-- One streamed legacy function-call delta (ChoiceDeltaFunctionCall). -/
structure FunctionCallDelta where
  name : Option String := none
  arguments : Option String := none
deriving DecidableEq, Repr

/-- The delta of one streamed choice (ChoiceDelta): at most one of text
content, tool-call deltas, legacy function-call delta. -/
structure Delta where
  content : Option String := none
  tool_calls : Option (List ToolCallDelta) := none
  function_call : Option FunctionCallDelta := none
deriving DecidableEq, Repr

/-- One streamed choice: optional delta plus optional terminal reason. -/
structure StreamChoice where
  delta : Option Delta := none
  finish_reason : Option String := none
deriving DecidableEq, Repr

/-- One streamed event (ChatCompletionChunk): a list of choices. -/
structure Chunk where
  choices : List StreamChoice
deriving DecidableEq, Repr

/-- The exceptions Chat.__process_stream can raise; all three are ValueError
in the source, distinguished here by their message strings. -/
inductive StreamError where
  /-- ValueError "Tool call without function" (chat.py line 163). -/
  | toolCallWithoutFunction
  /-- ValueError "Function arguments provided without function name" (line 202). -/
  | functionArgumentsWithoutName
  /-- ValueError "No finish reason provided by OpenAI" (line 215). -/
  | noFinishReason
deriving DecidableEq, Repr

/-- Ghost record of one observable event of the stream processor: a message
appended to the owned history (self.append) or the creation of a tool-call
accumulator.  Used only to state ordering properties; it does not influence
the computation. -/
inductive TraceAction where
  | append (m : Message)
  | create (ta : ToolArguments)
deriving DecidableEq, Repr

/-- Tests whether a ghost action is a history append. -/
def TraceAction.isAppend : TraceAction → Bool
  | .append _ => true
  | .create _ => false

/-- The local state of Chat.__process_stream: the assistant turn builder, the
legacy function-call accumulator, the recorded finish reason, the tool-call
accumulator list, plus the messages appended to self.messages so far.
The fields errored and stopped model the raise and break control flow of the
loop; trace and loopFlush are ghost instrumentation (trace mirrors appends and
accumulator creations in program order, loopFlush records the content of the
turn builder at the moment the in-loop finished transition fired).  Neither
ghost field feeds back into the computation. -/
structure StreamAcc where
  assistant_view : AssistantMessageView := {}
  function_view : Option ToolArguments := none
  finish_reason : Option String := none
  tool_calls : List ToolArguments := []
  appended : List Message := []
  errored : Option StreamError := none
  stopped : Bool := false
  trace : List TraceAction := []
  loopFlush : Option String := none
deriving DecidableEq, Repr

/-- Append a message to the owned history (self.append inside
__process_stream), recording it in the ghost trace as well. -/
def StreamAcc.appendMessage (acc : StreamAcc) (m : Message) : StreamAcc :=
  { acc with appended := acc.appended ++ [m], trace := acc.trace ++ [TraceAction.append m] }

/-- Lines 153-159 and 189-194 of chat.py: on the first tool-call or legacy
function-name delta, mark the builder finished and, when it holds text, flush
it into the history. -/
def flushIfUnfinished (acc : StreamAcc) : StreamAcc :=
  if acc.assistant_view.finished then acc
  else
    let acc1 := { acc with
      assistant_view := { acc.assistant_view with finished := true },
      loopFlush := some acc.assistant_view.content }
    if acc.assistant_view.content ≠ "" then
      acc1.appendMessage acc.assistant_view.get_message
    else acc1

/-- Replace the element at a position of a list, leaving the list unchanged
when the position is out of range (the Python item assignment semantics of
tool_calls[index] after the bounds check). -/
def modifyIdx (f : α → α) : Nat → List α → List α
  | _, [] => []
  | 0, a :: as => f a :: as
  | n + 1, a :: as => a :: modifyIdx f n as

/-- Lines 160-184 of chat.py: the loop over the tool-call deltas of one event.
A delta without a function payload raises; a delta whose index hits an existing
accumulator appends its argument fragment to it; otherwise a delta carrying a
complete name, arguments and id triple creates a new accumulator at the end of
the list; any other delta is skipped. -/
def processToolCallDeltas : StreamAcc → List ToolCallDelta → StreamAcc
  | acc, [] => acc
  | acc, tc :: rest =>
    match tc.function with
    | none => { acc with errored := some StreamError.toolCallWithoutFunction }
    | some f =>
      if tc.index < acc.tool_calls.length then
        match f.arguments with
        | some a =>
          processToolCallDeltas
            { acc with tool_calls :=
                modifyIdx (fun t => t.append_arguments a) tc.index acc.tool_calls } rest
        | none => processToolCallDeltas acc rest
      else
        match tc.id, f.name, f.arguments with
        | some i, some n, some a =>
          let ta : ToolArguments := { id := i, name := n, arguments := a }
          processToolCallDeltas
            { acc with tool_calls := acc.tool_calls ++ [ta],
                       trace := acc.trace ++ [TraceAction.create ta] } rest
        | _, _, _ => processToolCallDeltas acc rest

/-- Lines 186-203 of chat.py: a legacy function-call delta.  A name flushes the
turn builder and creates the single-shot accumulator with the sentinel id TBD;
arguments append to it, and arguments without any accumulator raise. -/
def processFunctionCallDelta (acc : StreamAcc) (fc : FunctionCallDelta) : StreamAcc :=
  let acc1 :=
    match fc.name with
    | some n =>
      let a := flushIfUnfinished acc
      { a with function_view := some { id := "TBD", name := n, arguments := "" } }
    | none => acc
  match fc.arguments with
  | some args =>
    match acc1.function_view with
    | none => { acc1 with errored := some StreamError.functionArgumentsWithoutName }
    | some fv => { acc1 with function_view := some (fv.append_arguments args) }
  | none => acc1

/-- Second and third branches of the delta dispatch (lines 152-203): tool-call
deltas, else the legacy function-call delta, else nothing. -/
def processDeltaRest (acc : StreamAcc) (d : Delta) : StreamAcc :=
  match d.tool_calls with
  | some tcs => processToolCallDeltas (flushIfUnfinished acc) tcs
  | none =>
    match d.function_call with
    | some fc => processFunctionCallDelta acc fc
    | none => acc

/-- Lines 148-203 of chat.py: the elif chain over one delta.  Non-empty text
content is appended to the turn builder; otherwise the remaining branches run. -/
def processDelta (acc : StreamAcc) (d : Delta) : StreamAcc :=
  match d.content with
  | some c =>
    if c ≠ "" then { acc with assistant_view := acc.assistant_view.append c }
    else processDeltaRest acc d
  | none => processDeltaRest acc d

/-- Lines 138-206 of chat.py: one loop iteration.  An event with no choices is
skipped; otherwise the delta of the first choice is processed and a terminal reason,
when present, is recorded together with the break flag. -/
def processChunk (acc : StreamAcc) (c : Chunk) : StreamAcc :=
  match c.choices with
  | [] => acc
  | choice :: _ =>
    let acc1 :=
      match choice.delta with
      | some d => processDelta acc d
      | none => acc
    if acc1.errored.isSome then acc1
    else
      match choice.finish_reason with
      | some fr => { acc1 with finish_reason := some fr, stopped := true }
      | none => acc1

/-- The async-for loop of __process_stream: events are consumed in order until
the list ends, an exception is raised, or the break on a terminal reason fires. -/
def processChunks : StreamAcc → List Chunk → StreamAcc
  | acc, [] => acc
  | acc, c :: rest =>
    let acc1 := processChunk acc c
    if acc1.errored.isSome || acc1.stopped then acc1
    else processChunks acc1 rest

/-- Chat.__process_stream (lines 129-217): run the loop, then flush the turn
builder when it never explicitly finished (lines 208-212), then raise when no
finish reason was ever provided (lines 214-215).  The resulting accumulator
carries the returned triple (finish_reason, function_view, tool_calls) and the
messages appended to the history along the way. -/
def processStream (chunks : List Chunk) : StreamAcc :=
  let acc := processChunks {} chunks
  if acc.errored.isSome then acc
  else
    let acc1 :=
      if acc.assistant_view.finished then acc
      else acc.appendMessage acc.assistant_view.get_message
    if acc1.finish_reason.isSome then acc1
    else { acc1 with errored := some StreamError.noFinishReason }

/-- One non-streamed choice (Choice): message plus finish reason. -/
structure FullChoice where
  message : FullMessage
  finish_reason : String
deriving DecidableEq, Repr

/-- A non-streamed response (ChatCompletion): a list of choices. -/
structure ChatCompletion where
  choices : List FullChoice
deriving DecidableEq, Repr

/-- Result of Chat.__process_full_completion: the messages it appended to the
history and the returned triple. -/
structure FullResult where
  appended : List Message
  finish_reason : String
  function_view : Option ToolArguments
  tool_calls : List ToolArguments
deriving DecidableEq, Repr

/-- Chat.__process_full_completion (lines 219-254).  No choices is a logged
no-op with reason stop; otherwise the text content, when present, is appended
as an assistant message; a legacy function call becomes the function view; and
the loop over tool calls reconstructs each call and appends the whole
message.model_dump() payload once per tool call, from inside the loop. -/
def processFullCompletion (resp : ChatCompletion) : FullResult :=
  match resp.choices with
  | [] => { appended := [], finish_reason := "stop", function_view := none, tool_calls := [] }
  | choice :: _ =>
    let m := choice.message
    let appended1 : List Message :=
      match m.content with
      | some c => [Message.assistant c]
      | none => []
    let function_view : Option ToolArguments :=
      match m.function_call with
      | some fc => some { id := "TBD", name := fc.name, arguments := fc.arguments }
      | none => none
    match m.tool_calls with
    | some tcs =>
      { appended := appended1 ++ tcs.map (fun _ => Message.fullPayload m),
        finish_reason := choice.finish_reason,
        function_view := function_view,
        tool_calls := tcs.map (fun tc =>
          { id := tc.id, name := tc.function.name, arguments := tc.function.arguments }) }
    | none =>
      { appended := appended1, finish_reason := choice.finish_reason,
        function_view := function_view, tool_calls := [] }

/-- Modelled from the spec (section 6): the function registry is consumed only
through lookup and invocation; a registered tool maps the raw accumulated
argument text to the text carried by its result message.  Argument parsing and
the wrapping of tool errors into result text are folded into the registered
function, since the registry implementation is not part of the provided
sources and no claim depends on them. -/
def FunctionRegistry : Type := String → Option (String → String)

/-- Modelled from the spec (section 4.1): invoking a call by name; an unknown
tool produces an error result rather than raising. -/
def callOutput (reg : FunctionRegistry) (name args : String) : String :=
  match reg name with
  | none => "UnknownToolError"
  | some f => f args

/-- Modelled from the spec: the call-request message of the legacy path
(ToolArguments.get_function_message). -/
def ToolArguments.get_function_message (ta : ToolArguments) : Message :=
  Message.assistantFunctionCall ta.name ta.arguments

/-- Modelled from the spec: the result message of a legacy function call
(get_function_called_message of the invoked call). -/
def functionCalledMessage (reg : FunctionRegistry) (ta : ToolArguments) : Message :=
  Message.functionResult ta.name (callOutput reg ta.name ta.arguments)

/-- Modelled from the spec: the result message of a tool call
(get_tool_called_message of the invoked call), correlated by id. -/
def toolCalledMessage (reg : FunctionRegistry) (ta : ToolArguments) : Message :=
  Message.toolResult ta.id (callOutput reg ta.name ta.arguments)

/-- The observable state of a Chat object: the owned message history plus a
ghost trace of the backoff waits performed (each asyncio.sleep duration). -/
structure ChatState where
  messages : List Message
  sleeps : List Nat := []
deriving DecidableEq, Repr

/-- An argument to submit: a raw string (wrapped as a human message) or a
structured message passed through, as in Chat.append. -/
inductive Input where
  | str (s : String)
  | msg (m : Message)
deriving DecidableEq, Repr

/-- Lines 278-282 and 382-386 of chat.py: strings become human messages,
structured messages pass through. -/
def Input.toMessage : Input → Message
  | .str s => Message.user s
  | .msg m => m

/-- One scripted behaviour of the remote completion service for one request
issued by submit: throttling (openai.RateLimitError), some other request
failure, an accepted streaming response, or an accepted full response.
Whether submit asked for streaming is encoded by which accepted shape the
script supplies, since the stream flag only selects the response shape. -/
inductive ServiceResponse where
  | throttled
  | requestError
  | streamOk (chunks : List Chunk)
  | fullOk (resp : ChatCompletion)
deriving DecidableEq, Repr

/-- How a submit call ends: normal return, or an uncaught exception. -/
inductive SubmitError where
  /-- A ValueError escaping __process_stream. -/
  | streamError (e : StreamError)
  /-- ValueError at lines 332-335: finish reason function_call with no call. -/
  | functionCallMissing
  /-- A non-throttling failure while issuing the completion request. -/
  | requestFailed
  /-- Modeling artifact: the response script ran out. -/
  | noResponse
  /-- Modeling artifact: the recursion fuel ran out. -/
  | outOfFuel
deriving DecidableEq, Repr

/-- Outcome of a submit call. -/
inductive Outcome where
  | ok
  | error (e : SubmitError)
deriving DecidableEq, Repr

/-- Result of a submit call: the final chat state, the unconsumed part of the
service script, and the outcome. -/
structure SubmitResult where
  state : ChatState
  rest : List ServiceResponse
  outcome : Outcome
deriving DecidableEq, Repr

/-- Whether the finish-reason dispatch ends the call or recurses into submit. -/
inductive DispatchOut where
  | done (outcome : Outcome)
  | recurse
deriving DecidableEq, Repr

/-- Lines 331-370 of chat.py: dispatch on the finish reason after a processed
response.  On function_call the legacy call must be present or a ValueError is
raised; otherwise its request message is appended, it is invoked, and its
result message is appended before recursing.  On tool_calls with a non-empty
list, each call is invoked in creation order and only its result message is
appended (the assistant_tool_calls(tool_arguments) message built at line 349 is
discarded by the source, not appended), then submit recurses.  Every other
finish reason (stop, max_tokens, length, content_filter, unknown) returns
normally, the non-stop ones after printing a notice. -/
def dispatch (reg : FunctionRegistry) (st : ChatState) (finish : String)
    (function_view : Option ToolArguments) (tool_calls : List ToolArguments) :
    ChatState × DispatchOut :=
  if finish = "function_call" then
    match function_view with
    | none => (st, DispatchOut.done (Outcome.error SubmitError.functionCallMissing))
    | some f =>
      let st1 := { st with messages := st.messages ++ [f.get_function_message] }
      let st2 := { st1 with messages := st1.messages ++ [functionCalledMessage reg f] }
      (st2, DispatchOut.recurse)
  else if finish = "tool_calls" ∧ tool_calls ≠ [] then
    (tool_calls.foldl
      (fun s ta => { s with messages := s.messages ++ [toolCalledMessage reg ta] }) st,
     DispatchOut.recurse)
  else (st, DispatchOut.done Outcome.ok)

/-- Chat.submit (lines 256-370), driven by a scripted service and a recursion
fuel.  The outgoing message list is built from the history and the new inputs
without touching the history; the next scripted response stands for the awaited
completions.create call.  Throttling sleeps 5 seconds and retries the whole
submit with identical arguments; any other request failure propagates with the
history untouched.  On an accepted response the new inputs are appended to the
history, the response is processed (its appends landing in the history), and
the finish reason is dispatched; a recursing dispatch re-enters submit with no
new inputs. -/
def submit (reg : FunctionRegistry) :
    Nat → ChatState → List ServiceResponse → List Input → SubmitResult
  | 0, st, script, _ =>
    { state := st, rest := script, outcome := Outcome.error SubmitError.outOfFuel }
  | _ + 1, st, [], _ =>
    { state := st, rest := [], outcome := Outcome.error SubmitError.noResponse }
  | fuel + 1, st, ServiceResponse.throttled :: rest, inputs =>
    submit reg fuel { st with sleeps := st.sleeps ++ [5] } rest inputs
  | _ + 1, st, ServiceResponse.requestError :: rest, _ =>
    { state := st, rest := rest, outcome := Outcome.error SubmitError.requestFailed }
  | fuel + 1, st, ServiceResponse.streamOk chunks :: rest, inputs =>
    let st1 := { st with messages := st.messages ++ inputs.map Input.toMessage }
    let acc := processStream chunks
    let st2 := { st1 with messages := st1.messages ++ acc.appended }
    match acc.errored with
    | some e =>
      { state := st2, rest := rest, outcome := Outcome.error (SubmitError.streamError e) }
    | none =>
      match dispatch reg st2 (acc.finish_reason.getD "") acc.function_view acc.tool_calls with
      | (st3, DispatchOut.done outcome) => { state := st3, rest := rest, outcome := outcome }
      | (st3, DispatchOut.recurse) => submit reg fuel st3 rest []
  | fuel + 1, st, ServiceResponse.fullOk resp :: rest, inputs =>
    let st1 := { st with messages := st.messages ++ inputs.map Input.toMessage }
    let r := processFullCompletion resp
    let st2 := { st1 with messages := st1.messages ++ r.appended }
    match dispatch reg st2 r.finish_reason r.function_view r.tool_calls with
    | (st3, DispatchOut.done outcome) => { state := st3, rest := rest, outcome := outcome }
    | (st3, DispatchOut.recurse) => submit reg fuel st3 rest []

/-- A streamed event carrying one non-empty-or-empty text fragment. -/
def textChunk (s : String) : Chunk :=
  { choices := [{ delta := some { content := some s } }] }

/-- A streamed event carrying one batch of tool-call deltas. -/
def toolChunk (tcs : List ToolCallDelta) : Chunk :=
  { choices := [{ delta := some { tool_calls := some tcs } }] }

/-- A streamed event carrying one legacy function-call delta. -/
def fcChunk (fc : FunctionCallDelta) : Chunk :=
  { choices := [{ delta := some { function_call := some fc } }] }

/-- A streamed event carrying only a terminal reason. -/
def finishChunk (reason : String) : Chunk :=
  { choices := [{ delta := some {}, finish_reason := some reason }] }

/-- Concatenation of a list of strings, in order. -/
def strConcat : List String → String
  | [] => ""
  | s :: rest => s ++ strConcat rest

/-- The text fragments delivered by a list of events (the content fields of
their first choices), concatenated in arrival order. -/
def textOf (chunks : List Chunk) : String :=
  strConcat (chunks.filterMap fun c =>
    match c.choices with
    | [] => none
    | choice :: _ => choice.delta.bind fun d => d.content)

/-- An event that triggers neither a flush of the turn builder nor the end of
the turn: its processed choice carries no tool-call deltas, no legacy
function-call delta and no terminal reason. -/
def noTriggerB (c : Chunk) : Bool :=
  match c.choices with
  | [] => true
  | choice :: _ =>
    choice.finish_reason.isNone &&
      (match choice.delta with
       | none => true
       | some d => d.tool_calls.isNone && d.function_call.isNone)

/-- An event free of the two malformed-delta protocol violations: every
tool-call delta carries its function payload, and every legacy function-call
delta carrying arguments also carries a name. -/
def wfChunkB (c : Chunk) : Bool :=
  match c.choices with
  | [] => true
  | choice :: _ =>
    match choice.delta with
    | none => true
    | some d =>
      (match d.tool_calls with
       | none => true
       | some tcs => tcs.all fun tc => tc.function.isSome) &&
      (match d.function_call with
       | none => true
       | some fc => fc.arguments.isNone || fc.name.isSome)

/-- Well-formed tool-call delta sequence relative to the number of accumulators
already created: every delta carries its function payload, and the first delta
of each new positional index arrives when exactly that many accumulators exist
and carries a complete id, name and arguments triple. -/
def wfToolDeltas : Nat → List ToolCallDelta → Bool
  | _, [] => true
  | n, tc :: rest =>
    match tc.function with
    | none => false
    | some f =>
      if tc.index < n then wfToolDeltas n rest
      else
        tc.index == n && f.name.isSome && f.arguments.isSome && tc.id.isSome &&
          wfToolDeltas (n + 1) rest

/-- Number of accumulator creations a delta sequence performs, starting from a
given number of existing accumulators. -/
def creationCount : Nat → List ToolCallDelta → Nat
  | _, [] => 0
  | n, tc :: rest =>
    if tc.index < n then creationCount n rest else creationCount (n + 1) rest + 1

/-- The argument fragments delivered for one positional index by a delta
sequence, concatenated in arrival order. -/
def fragmentsFor (ds : List ToolCallDelta) (i : Nat) : String :=
  strConcat (ds.filterMap fun tc =>
    if tc.index = i then tc.function.bind fun f => f.arguments else none)

/-- The first delta touching a positional index. -/
def firstDeltaFor (ds : List ToolCallDelta) (i : Nat) : Option ToolCallDelta :=
  ds.find? fun tc => tc.index == i

/-- The tool call a well-formed delta sequence is expected to reconstruct at a
positional index: id and name from the first delta touching the index (the
defaults are never reached for indices actually created under wfToolDeltas)
and the concatenation of all argument fragments delivered for the index. -/
def mkExpected (ds : List ToolCallDelta) (i : Nat) : ToolArguments :=
  { id := (((firstDeltaFor ds i).bind fun tc => tc.id)).getD "",
    name := ((firstDeltaFor ds i).bind fun tc => tc.function.bind fun f => f.name).getD "",
    arguments := fragmentsFor ds i }

/-- Positional lookup in a list, total via Option. -/
def nth : List α → Nat → Option α
  | [], _ => none
  | a :: _, 0 => some a
  | _ :: as, n + 1 => nth as n

theorem nth_none_of_le {α : Type} : ∀ (l : List α) (i : Nat), l.length ≤ i → nth l i = none := by
  intro l
  induction l with
  | nil => intro i _; rfl
  | cons a as ih =>
    intro i hi
    cases i with
    | zero => simp at hi
    | succ n => exact ih n (by simpa using hi)

theorem nth_append_left {α : Type} :
    ∀ (l1 l2 : List α) (i : Nat), i < l1.length → nth (l1 ++ l2) i = nth l1 i := by
  intro l1
  induction l1 with
  | nil => intro l2 i hi; simp at hi
  | cons a as ih =>
    intro l2 i hi
    cases i with
    | zero => rfl
    | succ n => exact ih l2 n (by simpa using hi)

theorem nth_append_right {α : Type} :
    ∀ (l1 l2 : List α) (j : Nat), nth (l1 ++ l2) (l1.length + j) = nth l2 j := by
  intro l1
  induction l1 with
  | nil => intro l2 j; simp [nth]
  | cons a as ih =>
    intro l2 j
    have : as.length + 1 + j = (as.length + j) + 1 := by omega
    simp only [List.cons_append, List.length_cons, this]
    exact ih l2 j

theorem length_modifyIdx {α : Type} (f : α → α) :
    ∀ (j : Nat) (l : List α), (modifyIdx f j l).length = l.length := by
  intro j l
  induction l generalizing j with
  | nil => cases j <;> rfl
  | cons a as ih =>
    cases j with
    | zero => rfl
    | succ n => simp [modifyIdx, ih n]

theorem nth_modifyIdx {α : Type} (f : α → α) :
    ∀ (j i : Nat) (l : List α),
      nth (modifyIdx f j l) i = if i = j then (nth l i).map f else nth l i := by
  intro j i l
  induction l generalizing i j with
  | nil => simp [modifyIdx, nth]
  | cons a as ih =>
    cases j with
    | zero =>
      cases i with
      | zero => rfl
      | succ n => simp [modifyIdx, nth]
    | succ m =>
      cases i with
      | zero => simp [modifyIdx, nth]
      | succ n =>
        simp only [modifyIdx, nth, ih m n]
        by_cases h : n = m
        · simp [h]
        · simp [h, fun hc => h (Nat.succ_injective hc)]

theorem fragmentsFor_cons_ne (tc : ToolCallDelta) (rest : List ToolCallDelta) (i : Nat)
    (h : tc.index ≠ i) : fragmentsFor (tc :: rest) i = fragmentsFor rest i := by
  simp [fragmentsFor, List.filterMap_cons, h]

theorem fragmentsFor_cons_some (tc : ToolCallDelta) (rest : List ToolCallDelta) (i : Nat)
    (f : ToolCallFunctionDelta) (a : String)
    (h : tc.index = i) (hf : tc.function = some f) (ha : f.arguments = some a) :
    fragmentsFor (tc :: rest) i = a ++ fragmentsFor rest i := by
  simp [fragmentsFor, List.filterMap_cons, h, hf, ha, strConcat]

theorem fragmentsFor_cons_none (tc : ToolCallDelta) (rest : List ToolCallDelta) (i : Nat)
    (f : ToolCallFunctionDelta)
    (h : tc.index = i) (hf : tc.function = some f) (ha : f.arguments = none) :
    fragmentsFor (tc :: rest) i = fragmentsFor rest i := by
  simp [fragmentsFor, List.filterMap_cons, h, hf, ha]

theorem firstDeltaFor_cons_ne (tc : ToolCallDelta) (rest : List ToolCallDelta) (i : Nat)
    (h : tc.index ≠ i) : firstDeltaFor (tc :: rest) i = firstDeltaFor rest i := by
  simp [firstDeltaFor, List.find?_cons, h]

theorem firstDeltaFor_cons_eq (tc : ToolCallDelta) (rest : List ToolCallDelta) (i : Nat)
    (h : tc.index = i) : firstDeltaFor (tc :: rest) i = some tc := by
  simp [firstDeltaFor, List.find?_cons, h]

theorem mkExpected_cons_ne (tc : ToolCallDelta) (rest : List ToolCallDelta) (i : Nat)
    (h : tc.index ≠ i) : mkExpected (tc :: rest) i = mkExpected rest i := by
  simp [mkExpected, firstDeltaFor_cons_ne tc rest i h, fragmentsFor_cons_ne tc rest i h]

theorem flushIfUnfinished_tool_calls (acc : StreamAcc) :
    (flushIfUnfinished acc).tool_calls = acc.tool_calls := by
  unfold flushIfUnfinished StreamAcc.appendMessage
  split
  · rfl
  · split <;> rfl

theorem flushIfUnfinished_errored (acc : StreamAcc) :
    (flushIfUnfinished acc).errored = acc.errored := by
  unfold flushIfUnfinished StreamAcc.appendMessage
  split
  · rfl
  · split <;> rfl

theorem flushIfUnfinished_stopped (acc : StreamAcc) :
    (flushIfUnfinished acc).stopped = acc.stopped := by
  unfold flushIfUnfinished StreamAcc.appendMessage
  split
  · rfl
  · split <;> rfl

theorem flushIfUnfinished_finish_reason (acc : StreamAcc) :
    (flushIfUnfinished acc).finish_reason = acc.finish_reason := by
  unfold flushIfUnfinished StreamAcc.appendMessage
  split
  · rfl
  · split <;> rfl

theorem flushIfUnfinished_function_view (acc : StreamAcc) :
    (flushIfUnfinished acc).function_view = acc.function_view := by
  unfold flushIfUnfinished StreamAcc.appendMessage
  split
  · rfl
  · split <;> rfl

theorem flushIfUnfinished_finished (acc : StreamAcc) :
    (flushIfUnfinished acc).assistant_view.finished = true ∨
      (flushIfUnfinished acc).assistant_view = acc.assistant_view := by
  unfold flushIfUnfinished StreamAcc.appendMessage
  split
  · right; rfl
  · split <;> exact Or.inl rfl

theorem processChunk_toolChunk (acc : StreamAcc) (g : List ToolCallDelta) :
    processChunk acc (toolChunk g) = processToolCallDeltas (flushIfUnfinished acc) g := by
  show (let acc1 := processDelta acc { tool_calls := some g };
        if acc1.errored.isSome then acc1 else acc1) = _
  simp only [processDelta, processDeltaRest]
  split <;> rfl

theorem ptcd_nil (A : StreamAcc) : processToolCallDeltas A [] = A := rfl

theorem ptcd_single_cont_some (A : StreamAcc) (tc : ToolCallDelta) (f : ToolCallFunctionDelta)
    (a : String) (hfn : tc.function = some f) (hidx : tc.index < A.tool_calls.length)
    (ha : f.arguments = some a) :
    processToolCallDeltas A [tc] =
      { A with tool_calls := modifyIdx (fun t => t.append_arguments a) tc.index A.tool_calls } := by
  simp [processToolCallDeltas, hfn, ha, if_pos hidx]

theorem ptcd_single_cont_none (A : StreamAcc) (tc : ToolCallDelta) (f : ToolCallFunctionDelta)
    (hfn : tc.function = some f) (_hidx : tc.index < A.tool_calls.length)
    (ha : f.arguments = none) :
    processToolCallDeltas A [tc] = A := by
  simp [processToolCallDeltas, hfn, ha, if_pos _hidx]

theorem ptcd_single_create (A : StreamAcc) (tc : ToolCallDelta) (f : ToolCallFunctionDelta)
    (i0 n0 a0 : String) (hfn : tc.function = some f)
    (hidx : ¬ tc.index < A.tool_calls.length)
    (hid : tc.id = some i0) (hname : f.name = some n0) (ha : f.arguments = some a0) :
    processToolCallDeltas A [tc] =
      { A with tool_calls := A.tool_calls ++ [{ id := i0, name := n0, arguments := a0 }],
               trace := A.trace ++ [TraceAction.create { id := i0, name := n0, arguments := a0 }] } := by
  simp [processToolCallDeltas, hfn, hid, hname, ha, if_neg hidx]

theorem creationCount_cons_lt (n : Nat) (tc : ToolCallDelta) (rest : List ToolCallDelta)
    (h : tc.index < n) : creationCount n (tc :: rest) = creationCount n rest := by
  simp [creationCount, h]

theorem creationCount_cons_ge (n : Nat) (tc : ToolCallDelta) (rest : List ToolCallDelta)
    (h : ¬ tc.index < n) : creationCount n (tc :: rest) = creationCount (n + 1) rest + 1 := by
  simp [creationCount, h]

theorem processChunks_cons (acc : StreamAcc) (c : Chunk) (cs : List Chunk) :
    processChunks acc (c :: cs) =
      if (processChunk acc c).errored.isSome || (processChunk acc c).stopped
      then processChunk acc c else processChunks (processChunk acc c) cs := rfl

theorem processChunks_nil (acc : StreamAcc) : processChunks acc [] = acc := rfl

theorem wfToolDeltas_cons_none (n : Nat) (tc : ToolCallDelta) (rest : List ToolCallDelta)
    (h : tc.function = none) : wfToolDeltas n (tc :: rest) = false := by
  simp [wfToolDeltas, h]

theorem wfToolDeltas_cons_lt (n : Nat) (tc : ToolCallDelta) (rest : List ToolCallDelta)
    (f : ToolCallFunctionDelta) (h : tc.function = some f) (hidx : tc.index < n) :
    wfToolDeltas n (tc :: rest) = wfToolDeltas n rest := by
  simp [wfToolDeltas, h, hidx]

theorem wfToolDeltas_cons_ge (n : Nat) (tc : ToolCallDelta) (rest : List ToolCallDelta)
    (f : ToolCallFunctionDelta) (h : tc.function = some f) (hidx : ¬ tc.index < n) :
    wfToolDeltas n (tc :: rest)
      = (tc.index == n && f.name.isSome && f.arguments.isSome && tc.id.isSome &&
          wfToolDeltas (n + 1) rest) := by
  simp [wfToolDeltas, h, hidx]

theorem processToolChunks_wf :
    ∀ (ds : List ToolCallDelta) (acc : StreamAcc),
      acc.errored = none → acc.stopped = false →
      wfToolDeltas acc.tool_calls.length ds = true →
      (processChunks acc (ds.map fun tc => toolChunk [tc])).errored = none ∧
      (processChunks acc (ds.map fun tc => toolChunk [tc])).stopped = false ∧
      (processChunks acc (ds.map fun tc => toolChunk [tc])).finish_reason = acc.finish_reason ∧
      (processChunks acc (ds.map fun tc => toolChunk [tc])).tool_calls.length
        = acc.tool_calls.length + creationCount acc.tool_calls.length ds ∧
      (∀ i, i < acc.tool_calls.length →
        nth (processChunks acc (ds.map fun tc => toolChunk [tc])).tool_calls i
          = (nth acc.tool_calls i).map fun ta =>
              { ta with arguments := ta.arguments ++ fragmentsFor ds i }) ∧
      (∀ i, acc.tool_calls.length ≤ i →
        nth (processChunks acc (ds.map fun tc => toolChunk [tc])).tool_calls i
          = if i < acc.tool_calls.length + creationCount acc.tool_calls.length ds
            then some (mkExpected ds i) else none) := by
  intro ds
  induction ds with
  | nil =>
    intro acc ha hs _
    simp only [List.map_nil, processChunks_nil]
    refine ⟨ha, hs, by trivial, by simp [creationCount], ?_, ?_⟩
    · intro i _
      cases hnth : nth acc.tool_calls i with
      | none => simp
      | some ta => cases ta; simp [fragmentsFor, strConcat, String.append_empty]
    · intro i hi
      simp only [creationCount, Nat.add_zero, if_neg (Nat.not_lt.mpr hi)]
      exact nth_none_of_le acc.tool_calls i hi
  | cons tc rest ih =>
    intro acc ha hs hwf
    cases hfn : tc.function with
    | none => rw [wfToolDeltas_cons_none _ tc rest hfn] at hwf; exact absurd hwf (by simp)
    | some f =>
      have hstep : (tc :: rest).map (fun tc => toolChunk [tc])
          = toolChunk [tc] :: rest.map (fun tc => toolChunk [tc]) := rfl
      rw [hstep, processChunks_cons, processChunk_toolChunk]
      have hAtc : (flushIfUnfinished acc).tool_calls = acc.tool_calls :=
        flushIfUnfinished_tool_calls acc
      have hAerr : (flushIfUnfinished acc).errored = none := by
        rw [flushIfUnfinished_errored]; exact ha
      have hAstop : (flushIfUnfinished acc).stopped = false := by
        rw [flushIfUnfinished_stopped]; exact hs
      have hAfin : (flushIfUnfinished acc).finish_reason = acc.finish_reason :=
        flushIfUnfinished_finish_reason acc
      by_cases hidx : tc.index < acc.tool_calls.length
      · rw [wfToolDeltas_cons_lt _ tc rest f hfn hidx] at hwf
        cases harg : f.arguments with
        | some a =>
          have hone : processToolCallDeltas (flushIfUnfinished acc) [tc]
              = { flushIfUnfinished acc with
                    tool_calls := modifyIdx (fun t => t.append_arguments a) tc.index
                      acc.tool_calls } := by
            rw [ptcd_single_cont_some (flushIfUnfinished acc) tc f a hfn
              (by rw [hAtc]; exact hidx) harg, hAtc]
          rw [hone]
          have hlen1 : ({ flushIfUnfinished acc with
              tool_calls := modifyIdx (fun t => t.append_arguments a) tc.index
                acc.tool_calls } : StreamAcc).tool_calls.length
              = acc.tool_calls.length := length_modifyIdx _ _ _
          obtain ⟨ihe, ihs, ihf, ihlen, ihold, ihnew⟩ :=
            ih { flushIfUnfinished acc with
                  tool_calls := modifyIdx (fun t => t.append_arguments a) tc.index
                    acc.tool_calls } hAerr hAstop (by rw [hlen1]; exact hwf)
          rw [if_neg (by simp [hAerr, hAstop])]
          have hcc : creationCount acc.tool_calls.length (tc :: rest)
              = creationCount acc.tool_calls.length rest :=
            creationCount_cons_lt _ tc rest hidx
          refine ⟨ihe, ihs, by rw [ihf]; exact hAfin, ?_, ?_, ?_⟩
          · rw [ihlen, hlen1, hcc]
          · intro i hi
            rw [ihold i (by rw [hlen1]; exact hi)]
            have hmod : nth ({ flushIfUnfinished acc with
                tool_calls := modifyIdx (fun t => t.append_arguments a) tc.index
                  acc.tool_calls } : StreamAcc).tool_calls i
                = if i = tc.index
                  then (nth acc.tool_calls i).map (fun t => t.append_arguments a)
                  else nth acc.tool_calls i := nth_modifyIdx _ _ _ _
            by_cases hieq : i = tc.index
            · rw [hmod, if_pos hieq]
              rw [fragmentsFor_cons_some tc rest i f a (by rw [hieq]) hfn harg]
              cases nth acc.tool_calls i with
              | none => simp
              | some ta =>
                simp [ToolArguments.append_arguments, String.append_assoc]
            · rw [hmod, if_neg hieq]
              rw [fragmentsFor_cons_ne tc rest i (fun hc => hieq hc.symm)]
          · intro i hi
            rw [ihnew i (by rw [hlen1]; exact hi), hlen1, hcc]
            have hne : tc.index ≠ i := by omega
            rw [mkExpected_cons_ne tc rest i hne]
        | none =>
          have hone : processToolCallDeltas (flushIfUnfinished acc) [tc]
              = flushIfUnfinished acc :=
            ptcd_single_cont_none (flushIfUnfinished acc) tc f hfn
              (by rw [hAtc]; exact hidx) harg
          rw [hone]
          rw [if_neg (by simp [hAerr, hAstop])]
          obtain ⟨ihe, ihs, ihf, ihlen, ihold, ihnew⟩ :=
            ih (flushIfUnfinished acc) hAerr hAstop (by rw [hAtc]; exact hwf)
          have hcc : creationCount acc.tool_calls.length (tc :: rest)
              = creationCount acc.tool_calls.length rest :=
            creationCount_cons_lt _ tc rest hidx
          refine ⟨ihe, ihs, by rw [ihf]; exact hAfin, ?_, ?_, ?_⟩
          · rw [ihlen, hAtc, hcc]
          · intro i hi
            rw [ihold i (by rw [hAtc]; exact hi), hAtc]
            by_cases hieq : i = tc.index
            · rw [fragmentsFor_cons_none tc rest i f (by rw [hieq]) hfn harg]
            · rw [fragmentsFor_cons_ne tc rest i (fun hc => hieq hc.symm)]
          · intro i hi
            rw [ihnew i (by rw [hAtc]; exact hi), hAtc, hcc]
            have hne : tc.index ≠ i := by omega
            rw [mkExpected_cons_ne tc rest i hne]
      · rw [wfToolDeltas_cons_ge _ tc rest f hfn hidx] at hwf
        simp only [Bool.and_eq_true, beq_iff_eq, Option.isSome_iff_exists] at hwf
        obtain ⟨⟨⟨⟨hieq, ⟨n0, hname⟩⟩, ⟨a0, hargs⟩⟩, ⟨i0, hid⟩⟩, hwfr⟩ := hwf
        have hone : processToolCallDeltas (flushIfUnfinished acc) [tc]
            = { flushIfUnfinished acc with
                  tool_calls := acc.tool_calls ++ [{ id := i0, name := n0, arguments := a0 }],
                  trace := (flushIfUnfinished acc).trace
                    ++ [TraceAction.create { id := i0, name := n0, arguments := a0 }] } := by
          rw [ptcd_single_create (flushIfUnfinished acc) tc f i0 n0 a0 hfn
            (by rw [hAtc]; exact hidx) hid hname hargs, hAtc]
        rw [hone]
        have hlen1 : ({ flushIfUnfinished acc with
            tool_calls := acc.tool_calls ++ [{ id := i0, name := n0, arguments := a0 }],
            trace := (flushIfUnfinished acc).trace
              ++ [TraceAction.create { id := i0, name := n0, arguments := a0 }] }
              : StreamAcc).tool_calls.length
            = acc.tool_calls.length + 1 := by
          show (acc.tool_calls ++ [ToolArguments.mk i0 n0 a0]).length = acc.tool_calls.length + 1
          simp
        obtain ⟨ihe, ihs, ihf, ihlen, ihold, ihnew⟩ :=
          ih { flushIfUnfinished acc with
                tool_calls := acc.tool_calls ++ [{ id := i0, name := n0, arguments := a0 }],
                trace := (flushIfUnfinished acc).trace
                  ++ [TraceAction.create { id := i0, name := n0, arguments := a0 }] }
            hAerr hAstop (by rw [hlen1]; exact hwfr)
        rw [if_neg (by simp [hAerr, hAstop])]
        have hcc : creationCount acc.tool_calls.length (tc :: rest)
            = creationCount (acc.tool_calls.length + 1) rest + 1 :=
          creationCount_cons_ge _ tc rest hidx
        refine ⟨ihe, ihs, by rw [ihf]; exact hAfin, ?_, ?_, ?_⟩
        · rw [ihlen, hlen1, hcc]; omega
        · intro i hi
          rw [ihold i (by rw [hlen1]; omega)]
          have hnth1 : nth ({ flushIfUnfinished acc with
              tool_calls := acc.tool_calls ++ [{ id := i0, name := n0, arguments := a0 }],
              trace := (flushIfUnfinished acc).trace
                ++ [TraceAction.create { id := i0, name := n0, arguments := a0 }] }
                : StreamAcc).tool_calls i
              = nth acc.tool_calls i :=
            nth_append_left acc.tool_calls [{ id := i0, name := n0, arguments := a0 }] i hi
          rw [hnth1]
          have hne : tc.index ≠ i := by omega
          rw [fragmentsFor_cons_ne tc rest i hne]
        · intro i hi
          rcases Nat.eq_or_lt_of_le hi with hieqn | hgt
          · rw [ihold i (by rw [hlen1]; omega)]
            have hnth1 : nth ({ flushIfUnfinished acc with
                tool_calls := acc.tool_calls ++ [{ id := i0, name := n0, arguments := a0 }],
                trace := (flushIfUnfinished acc).trace
                  ++ [TraceAction.create { id := i0, name := n0, arguments := a0 }] }
                  : StreamAcc).tool_calls i
                = some { id := i0, name := n0, arguments := a0 } := by
              show nth (acc.tool_calls ++ [ToolArguments.mk i0 n0 a0]) i = _
              rw [← hieqn]
              have h0 := nth_append_right acc.tool_calls [ToolArguments.mk i0 n0 a0] 0
              simpa [nth] using h0
            rw [hnth1, hcc]
            rw [if_pos (by omega)]
            have htceq : tc.index = i := by omega
            have hme : mkExpected (tc :: rest) i
                = { id := i0, name := n0, arguments := a0 ++ fragmentsFor rest i } := by
              rw [mkExpected]
              rw [firstDeltaFor_cons_eq tc rest i htceq]
              rw [fragmentsFor_cons_some tc rest i f a0 htceq hfn hargs]
              simp [hid, hfn, hname]
            rw [hme]
            simp [ToolArguments.append_arguments]
          · rw [ihnew i (by rw [hlen1]; omega), hlen1, hcc]
            have hne : tc.index ≠ i := by omega
            rw [mkExpected_cons_ne tc rest i hne]
            by_cases hlt : i < acc.tool_calls.length + 1
                + creationCount (acc.tool_calls.length + 1) rest
            · rw [if_pos hlt, if_pos (by omega)]
            · rw [if_neg hlt, if_neg (by omega)]

theorem processChunks_singleton (acc : StreamAcc) (c : Chunk) :
    processChunks acc [c] = processChunk acc c := by
  rw [processChunks_cons]
  split
  · rfl
  · exact processChunks_nil _

theorem processChunks_append (l1 l2 : List Chunk) :
    ∀ acc : StreamAcc, acc.errored = none → acc.stopped = false →
    processChunks acc (l1 ++ l2)
      = if (processChunks acc l1).errored.isSome || (processChunks acc l1).stopped
        then processChunks acc l1 else processChunks (processChunks acc l1) l2 := by
  induction l1 with
  | nil =>
    intro acc ha hs
    rw [List.nil_append, processChunks_nil, if_neg (by simp [ha, hs])]
  | cons c cs ih =>
    intro acc ha hs
    by_cases hbad : ((processChunk acc c).errored.isSome || (processChunk acc c).stopped) = true
    · have h1 : processChunks acc ((c :: cs) ++ l2) = processChunk acc c := by
        rw [List.cons_append, processChunks_cons, if_pos hbad]
      have h2 : processChunks acc (c :: cs) = processChunk acc c := by
        rw [processChunks_cons, if_pos hbad]
      rw [h1, h2, if_pos hbad]
    · simp only [Bool.or_eq_true, Option.isSome_iff_exists] at hbad
      push_neg at hbad
      obtain ⟨hb1, hb2⟩ := hbad
      have he : (processChunk acc c).errored = none := by
        cases h : (processChunk acc c).errored with
        | none => rfl
        | some e => exact absurd h (hb1 e)
      have hst : (processChunk acc c).stopped = false := by
        simpa using hb2
      have hbad2 : ¬ (((processChunk acc c).errored.isSome || (processChunk acc c).stopped) = true) := by
        simp [he, hst]
      have h1 : processChunks acc ((c :: cs) ++ l2)
          = processChunks (processChunk acc c) (cs ++ l2) := by
        rw [List.cons_append, processChunks_cons, if_neg hbad2]
      have h2 : processChunks acc (c :: cs) = processChunks (processChunk acc c) cs := by
        rw [processChunks_cons, if_neg hbad2]
      rw [h1, h2]
      exact ih (processChunk acc c) he hst

theorem processChunk_finishChunk (acc : StreamAcc) (r : String)
    (herr : acc.errored = none) :
    processChunk acc (finishChunk r)
      = { acc with finish_reason := some r, stopped := true } := by
  show (if (processDelta acc { }).errored.isSome then processDelta acc { }
        else { processDelta acc { } with finish_reason := some r, stopped := true }) = _
  have hpd : processDelta acc { } = acc := rfl
  rw [hpd, if_neg (by simp [herr])]

theorem appendMessage_tool_calls (acc : StreamAcc) (m : Message) :
    (acc.appendMessage m).tool_calls = acc.tool_calls := rfl

theorem appendMessage_errored (acc : StreamAcc) (m : Message) :
    (acc.appendMessage m).errored = acc.errored := rfl

theorem appendMessage_finish_reason (acc : StreamAcc) (m : Message) :
    (acc.appendMessage m).finish_reason = acc.finish_reason := rfl

theorem appendMessage_function_view (acc : StreamAcc) (m : Message) :
    (acc.appendMessage m).function_view = acc.function_view := rfl

theorem processStream_of_some_finish (chunks : List Chunk)
    (he : (processChunks {} chunks).errored = none)
    (hf : (processChunks {} chunks).finish_reason.isSome = true) :
    (processStream chunks).tool_calls = (processChunks {} chunks).tool_calls ∧
    (processStream chunks).errored = none ∧
    (processStream chunks).function_view = (processChunks {} chunks).function_view ∧
    (processStream chunks).finish_reason = (processChunks {} chunks).finish_reason := by
  unfold processStream
  rw [if_neg (by simp [he])]
  by_cases hfin : (processChunks {} chunks).assistant_view.finished
  · rw [if_pos hfin, if_pos hf]
    exact ⟨rfl, he, rfl, rfl⟩
  · rw [if_neg hfin]
    rw [if_pos (by rw [appendMessage_finish_reason]; exact hf)]
    refine ⟨appendMessage_tool_calls _ _, ?_, appendMessage_function_view _ _,
      appendMessage_finish_reason _ _⟩
    rw [appendMessage_errored]; exact he

/-- C3 (amended): for every streamed tool-call delta sequence, delivered one
delta per event, in which the first delta of each positional index arrives
when exactly that many accumulators exist (so first appearances run 0,1,...)
and carries a complete id, name and arguments triple, the reconstructed
tool-call list has length equal to the number of indices touched, is ordered
by first-appearance index, and the call at each position carries the id and
name of its creating delta and the concatenation of all argument fragments
delivered for its index in arrival order. -/
theorem C3_tool_call_reconstruction (ds : List ToolCallDelta)
    (hwf : wfToolDeltas 0 ds = true) :
    (processStream (ds.map (fun tc => toolChunk [tc]) ++ [finishChunk "tool_calls"])).errored
      = none ∧
    (processStream (ds.map (fun tc => toolChunk [tc]) ++ [finishChunk "tool_calls"])).tool_calls.length
      = creationCount 0 ds ∧
    (∀ i, i < creationCount 0 ds →
      nth (processStream (ds.map (fun tc => toolChunk [tc])
        ++ [finishChunk "tool_calls"])).tool_calls i = some (mkExpected ds i)) := by
  obtain ⟨he, hsp, hfin, hlen, hold, hnew⟩ := processToolChunks_wf ds {} rfl rfl hwf
  have hsplit : processChunks {} ((ds.map fun tc => toolChunk [tc]) ++ [finishChunk "tool_calls"])
      = { processChunks {} (ds.map fun tc => toolChunk [tc]) with
            finish_reason := some "tool_calls", stopped := true } := by
    rw [processChunks_append (ds.map fun tc => toolChunk [tc]) [finishChunk "tool_calls"] {}
      rfl rfl]
    rw [if_neg (by simp [he, hsp])]
    rw [processChunks_singleton, processChunk_finishChunk _ _ he]
  have he2 : (processChunks {} ((ds.map fun tc => toolChunk [tc])
      ++ [finishChunk "tool_calls"])).errored = none := by
    rw [hsplit]; exact he
  have hf2 : (processChunks {} ((ds.map fun tc => toolChunk [tc])
      ++ [finishChunk "tool_calls"])).finish_reason.isSome = true := by
    rw [hsplit]; rfl
  obtain ⟨htc, herr2, hfv2, hfr2⟩ := processStream_of_some_finish _ he2 hf2
  have htc2 : (processStream ((ds.map fun tc => toolChunk [tc])
      ++ [finishChunk "tool_calls"])).tool_calls
      = (processChunks {} (ds.map fun tc => toolChunk [tc])).tool_calls := by
    rw [htc, hsplit]
  have hlen0 : (processChunks {} (ds.map fun tc => toolChunk [tc])).tool_calls.length
      = 0 + creationCount 0 ds := hlen
  refine ⟨herr2, ?_, ?_⟩
  · rw [htc2, hlen0, Nat.zero_add]
  · intro i hi
    rw [htc2]
    have hn := hnew i (Nat.zero_le i)
    rw [hn, if_pos (by omega)]

/-- C3 counterexample: a delta sequence touching exactly the indices 0 and 1
(k = 2) whose deltas both carry complete creation triples, but whose first
appearances come in the order 1 then 0; the processor reconstructs a single
call (the second delta is treated as a continuation of the first), so the
returned list does not have length k. -/
theorem C3_counterexample :
    (let ds : List ToolCallDelta :=
      [{ index := 1, id := some "a", function := some { name := some "f", arguments := some "x" } },
       { index := 0, id := some "b", function := some { name := some "g", arguments := some "y" } }]
     (ds.all fun tc => decide (tc.index < 2)) = true ∧
     (ds.any fun tc => tc.index == 0) = true ∧
     (ds.any fun tc => tc.index == 1) = true ∧
     (processStream (ds.map (fun tc => toolChunk [tc]) ++ [finishChunk "tool_calls"])).errored
       = none ∧
     (processStream (ds.map (fun tc => toolChunk [tc])
       ++ [finishChunk "tool_calls"])).tool_calls.length ≠ 2) := by
  decide

/-- C3 witness: the amended reconstruction theorem applied to a concrete
well-formed two-call delta sequence with an interleaved continuation. -/
theorem C3_witness :
    wfToolDeltas 0
      [{ index := 0, id := some "a", function := some { name := some "f", arguments := some "x" } },
       { index := 1, id := some "b", function := some { name := some "g", arguments := some "z" } },
       { index := 0, id := none, function := some { name := none, arguments := some "y" } }] = true ∧
    (processStream
      ([{ index := 0, id := some "a", function := some { name := some "f", arguments := some "x" } },
        { index := 1, id := some "b", function := some { name := some "g", arguments := some "z" } },
        { index := 0, id := none,
          function := some { name := none, arguments := some "y" } }].map
          (fun tc : ToolCallDelta => toolChunk [tc])
        ++ [finishChunk "tool_calls"])).tool_calls.length
      = creationCount 0
        [{ index := 0, id := some "a", function := some { name := some "f", arguments := some "x" } },
         { index := 1, id := some "b", function := some { name := some "g", arguments := some "z" } },
         { index := 0, id := none, function := some { name := none, arguments := some "y" } }] :=
  ⟨by decide, (C3_tool_call_reconstruction _ (by decide)).2.1⟩

theorem processChunks_noTrigger :
    ∀ (pre : List Chunk) (acc : StreamAcc),
      (∀ c ∈ pre, noTriggerB c = true) →
      acc.errored = none → acc.stopped = false →
      processChunks acc pre
        = { acc with assistant_view :=
              { acc.assistant_view with
                  content := acc.assistant_view.content ++ textOf pre } } := by
  intro pre
  induction pre with
  | nil =>
    intro acc _ _ _
    rw [processChunks_nil]
    show acc = _
    have ht : textOf [] = "" := rfl
    rw [ht, String.append_empty]
  | cons c cs ih =>
    intro acc hno ha hs
    have hnoc : noTriggerB c = true := hno c (List.mem_cons_self c cs)
    have hnos : ∀ x ∈ cs, noTriggerB x = true := fun x hx => hno x (List.mem_cons_of_mem c hx)
    cases hc : c.choices with
    | nil =>
      have hpc : processChunk acc c = acc := by simp [processChunk, hc]
      have htx : textOf (c :: cs) = textOf cs := by simp [textOf, List.filterMap_cons, hc]
      rw [processChunks_cons, hpc, if_neg (by simp [ha, hs]), ih acc hnos ha hs, htx]
    | cons choice tail =>
      rw [noTriggerB, hc] at hnoc
      simp only [Bool.and_eq_true, Option.isNone_iff_eq_none] at hnoc
      obtain ⟨hfr, hdel⟩ := hnoc
      cases hd : choice.delta with
      | none =>
        have hpc : processChunk acc c = acc := by
          simp [processChunk, hc, hd, hfr]
        have htx : textOf (c :: cs) = textOf cs := by
          simp [textOf, List.filterMap_cons, hc, hd]
        rw [processChunks_cons, hpc, if_neg (by simp [ha, hs]), ih acc hnos ha hs, htx]
      | some d =>
        rw [hd] at hdel
        simp only [Bool.and_eq_true, Option.isNone_iff_eq_none] at hdel
        obtain ⟨hdtc, hdfc⟩ := hdel
        have hrest : processDeltaRest acc d = acc := by
          simp [processDeltaRest, hdtc, hdfc]
        cases hct : d.content with
        | none =>
          have hpc : processChunk acc c = acc := by
            simp [processChunk, hc, hd, hfr, processDelta, hct, hrest]
          have htx : textOf (c :: cs) = textOf cs := by
            simp [textOf, List.filterMap_cons, hc, hd, hct]
          rw [processChunks_cons, hpc, if_neg (by simp [ha, hs]), ih acc hnos ha hs, htx]
        | some s =>
          have htx : textOf (c :: cs) = s ++ textOf cs := by
            simp [textOf, List.filterMap_cons, hc, hd, hct, strConcat]
          by_cases hse : s = ""
          · have hpc : processChunk acc c = acc := by
              simp [processChunk, hc, hd, hfr, processDelta, hct, hse, hrest]
            rw [processChunks_cons, hpc, if_neg (by simp [ha, hs]), ih acc hnos ha hs, htx,
              hse, String.empty_append]
          · have hpc : processChunk acc c
                = { acc with assistant_view := acc.assistant_view.append s } := by
              simp [processChunk, hc, hd, hfr, processDelta, hct, hse]
            rw [processChunks_cons, hpc, if_neg (by simp [ha, hs])]
            rw [ih { acc with assistant_view := acc.assistant_view.append s } hnos ha hs, htx]
            show ({ acc with assistant_view :=
              { content := (acc.assistant_view.content ++ s) ++ textOf cs,
                finished := acc.assistant_view.finished } } : StreamAcc) = _
            rw [String.append_assoc]

theorem textOf_textChunks (ts : List String) : textOf (ts.map textChunk) = strConcat ts := by
  induction ts with
  | nil => rfl
  | cons s rest ih =>
    show textOf (textChunk s :: rest.map textChunk) = s ++ strConcat rest
    have h1 : textOf (textChunk s :: rest.map textChunk)
        = s ++ textOf (rest.map textChunk) := by
      simp [textOf, List.filterMap_cons, textChunk, strConcat]
    rw [h1, ih]

/-- C4: for every sequence of streamed text deltas followed by a stop terminal
marker, processing the stream appends exactly one assistant message, whose
content is the concatenation of the text deltas in arrival order, and the turn
processes without error. -/
theorem C4_text_stream_single_message (ts : List String) :
    (processStream (ts.map textChunk ++ [finishChunk "stop"])).appended
      = [Message.assistant (strConcat ts)] ∧
    (processStream (ts.map textChunk ++ [finishChunk "stop"])).errored = none := by
  have hall : ∀ c ∈ ts.map textChunk, noTriggerB c = true := by
    intro c hc
    obtain ⟨s, _, rfl⟩ := List.mem_map.mp hc
    rfl
  have hB := processChunks_noTrigger (ts.map textChunk) {} hall rfl rfl
  have hBc : processChunks {} (ts.map textChunk)
      = { assistant_view := { content := strConcat ts, finished := false },
          function_view := none, finish_reason := none, tool_calls := [],
          appended := [], errored := none, stopped := false, trace := [],
          loopFlush := none } := by
    rw [hB, textOf_textChunks ts]
    show ({ assistant_view := { content := "" ++ strConcat ts, finished := false },
            function_view := none, finish_reason := none, tool_calls := [],
            appended := [], errored := none, stopped := false, trace := [],
            loopFlush := none } : StreamAcc) = _
    rw [String.empty_append]
  have hsplit : processChunks {} (ts.map textChunk ++ [finishChunk "stop"])
      = { assistant_view := { content := strConcat ts, finished := false },
          function_view := none, finish_reason := some "stop", tool_calls := [],
          appended := [], errored := none, stopped := true, trace := [],
          loopFlush := none } := by
    rw [processChunks_append (ts.map textChunk) [finishChunk "stop"] {} rfl rfl, hBc]
    rw [if_neg (by simp)]
    rw [processChunks_singleton, processChunk_finishChunk _ _ rfl]
  constructor
  · simp only [processStream]
    rw [hsplit]
    rfl
  · simp only [processStream]
    rw [hsplit]
    rfl

theorem flushIfUnfinished_of_finished (acc : StreamAcc)
    (h : acc.assistant_view.finished = true) : flushIfUnfinished acc = acc := by
  unfold flushIfUnfinished
  rw [if_pos h]

theorem flushIfUnfinished_of_unfinished_nonempty (acc : StreamAcc)
    (h1 : acc.assistant_view.finished = false) (h2 : acc.assistant_view.content ≠ "") :
    flushIfUnfinished acc
      = { acc with
            assistant_view := { acc.assistant_view with finished := true },
            loopFlush := some acc.assistant_view.content,
            appended := acc.appended ++ [Message.assistant acc.assistant_view.content],
            trace := acc.trace
              ++ [TraceAction.append (Message.assistant acc.assistant_view.content)] } := by
  unfold flushIfUnfinished StreamAcc.appendMessage
  rw [if_neg (by simp [h1]), if_pos h2]
  rfl

theorem ptcd_ghost :
    ∀ (ds : List ToolCallDelta) (acc : StreamAcc),
      (processToolCallDeltas acc ds).appended = acc.appended ∧
      (processToolCallDeltas acc ds).assistant_view = acc.assistant_view ∧
      (processToolCallDeltas acc ds).stopped = acc.stopped ∧
      (processToolCallDeltas acc ds).finish_reason = acc.finish_reason ∧
      ∃ ex, (processToolCallDeltas acc ds).trace = acc.trace ++ ex ∧
        ∀ a ∈ ex, a.isAppend = false := by
  intro ds
  induction ds with
  | nil =>
    intro acc
    rw [ptcd_nil]
    exact ⟨rfl, rfl, rfl, rfl, [], by simp, by simp⟩
  | cons tc rest ih =>
    intro acc
    cases hfn : tc.function with
    | none =>
      have hone : processToolCallDeltas acc (tc :: rest)
          = { acc with errored := some StreamError.toolCallWithoutFunction } := by
        simp [processToolCallDeltas, hfn]
      rw [hone]
      exact ⟨rfl, rfl, rfl, rfl, [], by simp, by simp⟩
    | some f =>
      by_cases hidx : tc.index < acc.tool_calls.length
      · cases harg : f.arguments with
        | some a =>
          have hone : processToolCallDeltas acc (tc :: rest)
              = processToolCallDeltas
                  { acc with tool_calls :=
                      modifyIdx (fun t => t.append_arguments a) tc.index acc.tool_calls }
                  rest := by
            simp [processToolCallDeltas, hfn, harg, if_pos hidx]
          rw [hone]
          exact ih _
        | none =>
          have hone : processToolCallDeltas acc (tc :: rest)
              = processToolCallDeltas acc rest := by
            simp [processToolCallDeltas, hfn, harg, if_pos hidx]
          rw [hone]
          exact ih _
      · cases hid : tc.id with
        | none =>
          have hone : processToolCallDeltas acc (tc :: rest)
              = processToolCallDeltas acc rest := by
            cases hn : f.name <;> cases ha : f.arguments <;>
              simp [processToolCallDeltas, hfn, hid, hn, ha, if_neg hidx]
          rw [hone]
          exact ih _
        | some i0 =>
          cases hn : f.name with
          | none =>
            have hone : processToolCallDeltas acc (tc :: rest)
                = processToolCallDeltas acc rest := by
              cases ha : f.arguments <;>
                simp [processToolCallDeltas, hfn, hid, hn, ha, if_neg hidx]
            rw [hone]
            exact ih _
          | some n0 =>
            cases ha : f.arguments with
            | none =>
              have hone : processToolCallDeltas acc (tc :: rest)
                  = processToolCallDeltas acc rest := by
                simp [processToolCallDeltas, hfn, hid, hn, ha, if_neg hidx]
              rw [hone]
              exact ih _
            | some a0 =>
              have hone : processToolCallDeltas acc (tc :: rest)
                  = processToolCallDeltas
                      { acc with
                          tool_calls := acc.tool_calls
                            ++ [{ id := i0, name := n0, arguments := a0 }],
                          trace := acc.trace
                            ++ [TraceAction.create { id := i0, name := n0, arguments := a0 }] }
                      rest := by
                simp [processToolCallDeltas, hfn, hid, hn, ha, if_neg hidx]
              rw [hone]
              obtain ⟨h1, h2, h3, h4, ex, hex, hexa⟩ := ih
                { acc with
                    tool_calls := acc.tool_calls
                      ++ [{ id := i0, name := n0, arguments := a0 }],
                    trace := acc.trace
                      ++ [TraceAction.create { id := i0, name := n0, arguments := a0 }] }
              refine ⟨h1, h2, h3, h4,
                TraceAction.create { id := i0, name := n0, arguments := a0 } :: ex, ?_, ?_⟩
              · rw [hex]
                simp
              · intro a haex
                rcases List.mem_cons.mp haex with hh | hh
                · rw [hh]; rfl
                · exact hexa a hh

theorem pfcd_finished (acc : StreamAcc) (fc : FunctionCallDelta)
    (h : acc.assistant_view.finished = true) :
    (processFunctionCallDelta acc fc).appended = acc.appended ∧
    (processFunctionCallDelta acc fc).assistant_view = acc.assistant_view ∧
    (processFunctionCallDelta acc fc).stopped = acc.stopped ∧
    (processFunctionCallDelta acc fc).finish_reason = acc.finish_reason ∧
    (processFunctionCallDelta acc fc).trace = acc.trace := by
  unfold processFunctionCallDelta
  cases hn : fc.name with
  | some n =>
    rw [flushIfUnfinished_of_finished acc h]
    cases ha : fc.arguments with
    | some args => exact ⟨rfl, rfl, rfl, rfl, rfl⟩
    | none => exact ⟨rfl, rfl, rfl, rfl, rfl⟩
  | none =>
    cases ha : fc.arguments with
    | some args =>
      cases hv : acc.function_view with
      | none => simp [hv]
      | some fv => simp [hv]
    | none => exact ⟨rfl, rfl, rfl, rfl, rfl⟩

theorem processChunk_finished (acc : StreamAcc) (c : Chunk)
    (h : acc.assistant_view.finished = true) :
    (processChunk acc c).appended = acc.appended ∧
    (processChunk acc c).assistant_view.finished = true ∧
    ∃ ex, (processChunk acc c).trace = acc.trace ++ ex ∧
      ∀ a ∈ ex, a.isAppend = false := by
  have hdelta : ∀ d : Delta,
      (processDelta acc d).appended = acc.appended ∧
      (processDelta acc d).assistant_view.finished = true ∧
      ∃ ex, (processDelta acc d).trace = acc.trace ++ ex ∧
        ∀ a ∈ ex, a.isAppend = false := by
    intro d
    have hrest :
        (processDeltaRest acc d).appended = acc.appended ∧
        (processDeltaRest acc d).assistant_view.finished = true ∧
        ∃ ex, (processDeltaRest acc d).trace = acc.trace ++ ex ∧
          ∀ a ∈ ex, a.isAppend = false := by
      unfold processDeltaRest
      cases htc : d.tool_calls with
      | some tcs =>
        rw [flushIfUnfinished_of_finished acc h]
        obtain ⟨h1, h2, _, _, ex, hex, hexa⟩ := ptcd_ghost tcs acc
        exact ⟨h1, by rw [h2]; exact h, ex, hex, hexa⟩
      | none =>
        cases hfc : d.function_call with
        | some fc =>
          obtain ⟨h1, h2, _, _, h5⟩ := pfcd_finished acc fc h
          exact ⟨h1, by rw [h2]; exact h, [], by rw [h5]; simp, by simp⟩
        | none => exact ⟨rfl, h, [], by simp, by simp⟩
    unfold processDelta
    cases hct : d.content with
    | some s =>
      dsimp only
      by_cases hse : s ≠ ""
      · rw [if_pos hse]
        exact ⟨rfl, h, [], by simp, by simp⟩
      · rw [if_neg hse]
        exact hrest
    | none => exact hrest
  unfold processChunk
  cases hc : c.choices with
  | nil => exact ⟨rfl, h, [], by simp, by simp⟩
  | cons choice tail =>
    dsimp only
    cases hd : choice.delta with
    | none =>
      dsimp only
      by_cases he : acc.errored.isSome
      · rw [if_pos he]
        exact ⟨rfl, h, [], by simp, by simp⟩
      · rw [if_neg he]
        cases hf : choice.finish_reason with
        | some fr => exact ⟨rfl, h, [], by simp, by simp⟩
        | none => exact ⟨rfl, h, [], by simp, by simp⟩
    | some d =>
      dsimp only
      obtain ⟨h1, h2, ex, hex, hexa⟩ := hdelta d
      by_cases he : (processDelta acc d).errored.isSome
      · rw [if_pos he]
        exact ⟨h1, h2, ex, hex, hexa⟩
      · rw [if_neg he]
        cases hf : choice.finish_reason with
        | some fr => exact ⟨h1, h2, ex, hex, hexa⟩
        | none => exact ⟨h1, h2, ex, hex, hexa⟩

theorem processChunks_finished :
    ∀ (cs : List Chunk) (acc : StreamAcc),
      acc.assistant_view.finished = true →
      (processChunks acc cs).appended = acc.appended ∧
      (processChunks acc cs).assistant_view.finished = true ∧
      ∃ ex, (processChunks acc cs).trace = acc.trace ++ ex ∧
        ∀ a ∈ ex, a.isAppend = false := by
  intro cs
  induction cs with
  | nil =>
    intro acc h
    rw [processChunks_nil]
    exact ⟨rfl, h, [], by simp, by simp⟩
  | cons c rest ih =>
    intro acc h
    obtain ⟨h1, h2, ex1, hex1, hexa1⟩ := processChunk_finished acc c h
    rw [processChunks_cons]
    by_cases hbad : ((processChunk acc c).errored.isSome || (processChunk acc c).stopped) = true
    · rw [if_pos hbad]
      exact ⟨h1, h2, ex1, hex1, hexa1⟩
    · rw [if_neg hbad]
      obtain ⟨g1, g2, ex2, hex2, hexa2⟩ := ih (processChunk acc c) h2
      refine ⟨by rw [g1, h1], g2, ex1 ++ ex2, ?_, ?_⟩
      · rw [hex2, hex1, List.append_assoc]
      · intro a ha
        rcases List.mem_append.mp ha with hh | hh
        · exact hexa1 a hh
        · exact hexa2 a hh

theorem processStream_trace (chunks : List Chunk)
    (h : (processChunks {} chunks).assistant_view.finished = true) :
    (processStream chunks).trace = (processChunks {} chunks).trace ∧
    (processStream chunks).appended = (processChunks {} chunks).appended := by
  unfold processStream
  by_cases he : (processChunks {} chunks).errored.isSome
  · rw [if_pos he]
    exact ⟨rfl, rfl⟩
  · rw [if_neg he, if_pos h]
    by_cases hf : (processChunks {} chunks).finish_reason.isSome
    · rw [if_pos hf]
      exact ⟨rfl, rfl⟩
    · rw [if_neg hf]
      exact ⟨rfl, rfl⟩

/-- C5 (amended): if at least one nonempty text fragment arrives before the
first tool-call delta of a turn and no legacy function-call delta occurs
before that tool-call delta, then exactly one assistant message, carrying the
text accumulated up to that point, is appended to the history before any
tool-call accumulator is created: in the ghost trace of the processor the very
first action is that append, and it is the only append in the whole turn. -/
theorem C5_text_flushed_before_accumulators (pre : List Chunk) (g : List ToolCallDelta)
    (post : List Chunk)
    (hpre : ∀ c ∈ pre, noTriggerB c = true)
    (htext : textOf pre ≠ "") :
    (processStream (pre ++ toolChunk g :: post)).trace.head?
      = some (TraceAction.append (Message.assistant (textOf pre))) ∧
    ((processStream (pre ++ toolChunk g :: post)).trace.filter TraceAction.isAppend).length
      = 1 := by
  have hB : processChunks {} pre
      = { assistant_view := { content := textOf pre, finished := false },
          function_view := none, finish_reason := none, tool_calls := [],
          appended := [], errored := none, stopped := false, trace := [],
          loopFlush := none } := by
    rw [processChunks_noTrigger pre {} hpre rfl rfl]
    show ({ assistant_view := { content := "" ++ textOf pre, finished := false },
            function_view := none, finish_reason := none, tool_calls := [],
            appended := [], errored := none, stopped := false, trace := [],
            loopFlush := none } : StreamAcc) = _
    rw [String.empty_append]
  have h1 : processChunks {} (pre ++ toolChunk g :: post)
      = processChunks
          { assistant_view := { content := textOf pre, finished := false },
            function_view := none, finish_reason := none, tool_calls := [],
            appended := [], errored := none, stopped := false, trace := [],
            loopFlush := none } (toolChunk g :: post) := by
    rw [processChunks_append pre (toolChunk g :: post) {} rfl rfl, hB,
      if_neg (by simp)]
  have hflush : flushIfUnfinished
      { assistant_view := { content := textOf pre, finished := false },
        function_view := none, finish_reason := none, tool_calls := [],
        appended := [], errored := none, stopped := false, trace := [],
        loopFlush := none }
      = { assistant_view := { content := textOf pre, finished := true },
          function_view := none, finish_reason := none, tool_calls := [],
          appended := [Message.assistant (textOf pre)], errored := none, stopped := false,
          trace := [TraceAction.append (Message.assistant (textOf pre))],
          loopFlush := some (textOf pre) } := by
    rw [flushIfUnfinished_of_unfinished_nonempty _ rfl htext]
    rfl
  obtain ⟨hPCa, hPCv, hPCs, hPCf, ex1, hex1, hexa1⟩ :=
    ptcd_ghost g
      { assistant_view := { content := textOf pre, finished := true },
        function_view := none, finish_reason := none, tool_calls := [],
        appended := [Message.assistant (textOf pre)], errored := none, stopped := false,
        trace := [TraceAction.append (Message.assistant (textOf pre))],
        loopFlush := some (textOf pre) }
  have hPC : processChunk
      { assistant_view := { content := textOf pre, finished := false },
        function_view := none, finish_reason := none, tool_calls := [],
        appended := [], errored := none, stopped := false, trace := [],
        loopFlush := none } (toolChunk g)
      = processToolCallDeltas
          { assistant_view := { content := textOf pre, finished := true },
            function_view := none, finish_reason := none, tool_calls := [],
            appended := [Message.assistant (textOf pre)], errored := none, stopped := false,
            trace := [TraceAction.append (Message.assistant (textOf pre))],
            loopFlush := some (textOf pre) } g := by
    rw [processChunk_toolChunk, hflush]
  have hcore :
      (processChunks {} (pre ++ toolChunk g :: post)).assistant_view.finished = true ∧
      ∃ ex, (processChunks {} (pre ++ toolChunk g :: post)).trace
          = TraceAction.append (Message.assistant (textOf pre)) :: ex ∧
        ∀ a ∈ ex, a.isAppend = false := by
    rw [h1, processChunks_cons, hPC]
    set PC := processToolCallDeltas
      { assistant_view := { content := textOf pre, finished := true },
        function_view := none, finish_reason := none, tool_calls := [],
        appended := [Message.assistant (textOf pre)], errored := none, stopped := false,
        trace := [TraceAction.append (Message.assistant (textOf pre))],
        loopFlush := some (textOf pre) } g with hPCdef
    have hPCfin : PC.assistant_view.finished = true := by rw [hPCv]
    by_cases hbad : (PC.errored.isSome || PC.stopped) = true
    · rw [if_pos hbad]
      refine ⟨hPCfin, ex1, ?_, hexa1⟩
      rw [hex1]
      rfl
    · rw [if_neg hbad]
      obtain ⟨g1, g2, ex2, hex2, hexa2⟩ := processChunks_finished post PC hPCfin
      refine ⟨g2, ex1 ++ ex2, ?_, ?_⟩
      · rw [hex2, hex1]
        rw [List.append_assoc]
        rfl
      · intro a ha
        rcases List.mem_append.mp ha with hh | hh
        · exact hexa1 a hh
        · exact hexa2 a hh
  obtain ⟨hfin, ex, hex, hexa⟩ := hcore
  obtain ⟨htr, _⟩ := processStream_trace (pre ++ toolChunk g :: post) hfin
  rw [htr, hex]
  constructor
  · rfl
  · have hfe : ex.filter TraceAction.isAppend = [] := by
      rw [List.filter_eq_nil_iff]
      intro a ha
      rw [hexa a ha]
      simp
    rw [List.filter_cons]
    rw [if_pos (by rfl)]
    rw [hfe]
    rfl

/-- C5 counterexample: a turn in which a legacy function-call name delta
precedes the text, which precedes the first tool-call delta.  The text
fragment "hi" arrives before the first tool-call delta, yet no assistant
message is ever appended (the legacy delta finished the empty builder first),
while a tool-call accumulator is created: the claimed message does not exist. -/
theorem C5_counterexample :
    (processStream
      [fcChunk { name := some "legacy", arguments := none },
       textChunk "hi",
       toolChunk [{ index := 0, id := some "a1", function := some { name := some "add", arguments := some "(x)" } }],
       finishChunk "tool_calls"]).appended = [] ∧
    (processStream
      [fcChunk { name := some "legacy", arguments := none },
       textChunk "hi",
       toolChunk [{ index := 0, id := some "a1", function := some { name := some "add", arguments := some "(x)" } }],
       finishChunk "tool_calls"]).trace
      = [TraceAction.create { id := "a1", name := "add", arguments := "(x)" }] := by
  decide

/-- C5 witness: the amended theorem applied to the turn consisting of the text
fragment "hi" followed by one tool-call delta and the terminal marker. -/
theorem C5_witness :
    ([textChunk "hi"].all noTriggerB) = true ∧
    textOf [textChunk "hi"] ≠ "" ∧
    (processStream ([textChunk "hi"]
        ++ toolChunk [{ index := 0, id := some "a1", function := some { name := some "add", arguments := some "(x)" } }]
        :: [finishChunk "tool_calls"])).trace.head?
      = some (TraceAction.append (Message.assistant (textOf [textChunk "hi"]))) :=
  ⟨by decide, by decide,
    (C5_text_flushed_before_accumulators [textChunk "hi"]
      [{ index := 0, id := some "a1", function := some { name := some "add", arguments := some "(x)" } }]
      [finishChunk "tool_calls"] (by decide) (by decide)).1⟩

theorem ptcd_loopFlush :
    ∀ (ds : List ToolCallDelta) (acc : StreamAcc),
      (processToolCallDeltas acc ds).loopFlush = acc.loopFlush := by
  intro ds
  induction ds with
  | nil => intro acc; rw [ptcd_nil]
  | cons tc rest ih =>
    intro acc
    cases hfn : tc.function with
    | none => simp [processToolCallDeltas, hfn]
    | some f =>
      by_cases hidx : tc.index < acc.tool_calls.length
      · cases harg : f.arguments with
        | some a => simp [processToolCallDeltas, hfn, harg, if_pos hidx, ih]
        | none => simp [processToolCallDeltas, hfn, harg, if_pos hidx, ih]
      · cases hid : tc.id <;> cases hn : f.name <;> cases ha : f.arguments <;>
          simp [processToolCallDeltas, hfn, hid, hn, ha, if_neg hidx, ih]

theorem flushIfUnfinished_of_unfinished_empty (acc : StreamAcc)
    (h1 : acc.assistant_view.finished = false) (h2 : acc.assistant_view.content = "") :
    flushIfUnfinished acc
      = { acc with
            assistant_view := { acc.assistant_view with finished := true },
            loopFlush := some acc.assistant_view.content } := by
  unfold flushIfUnfinished
  rw [if_neg (by simp [h1]), if_neg (by simp [h2])]

theorem flushIfUnfinished_flush_invariant (acc : StreamAcc)
    (h1 : acc.appended.length
      = (match acc.loopFlush with | none => 0 | some s => if s = "" then 0 else 1))
    (h2 : acc.loopFlush.isNone = !acc.assistant_view.finished) :
    ((flushIfUnfinished acc).appended.length
      = (match (flushIfUnfinished acc).loopFlush with
         | none => 0 | some s => if s = "" then 0 else 1)) ∧
    ((flushIfUnfinished acc).loopFlush.isNone = !(flushIfUnfinished acc).assistant_view.finished)
      ∧ (flushIfUnfinished acc).assistant_view.finished = true
      ∨ flushIfUnfinished acc = acc := by
  cases hfin : acc.assistant_view.finished with
  | true =>
    right
    exact flushIfUnfinished_of_finished acc hfin
  | false =>
    left
    have hnone : acc.loopFlush = none := by
      rw [hfin] at h2
      simpa using h2
    have hlen0 : acc.appended.length = 0 := by
      rw [h1, hnone]
    by_cases hc : acc.assistant_view.content = ""
    · rw [flushIfUnfinished_of_unfinished_empty acc hfin hc]
      refine ⟨?_, by simp, rfl⟩
      show acc.appended.length = (if acc.assistant_view.content = "" then 0 else 1)
      rw [if_pos hc, hlen0]
    · rw [flushIfUnfinished_of_unfinished_nonempty acc hfin hc]
      refine ⟨?_, by simp, rfl⟩
      show (acc.appended ++ [Message.assistant acc.assistant_view.content]).length
        = (if acc.assistant_view.content = "" then 0 else 1)
      rw [if_neg hc]
      simp [hlen0]

theorem pfcd_flush_invariant (acc : StreamAcc) (fc : FunctionCallDelta)
    (h1 : acc.appended.length
      = (match acc.loopFlush with | none => 0 | some s => if s = "" then 0 else 1))
    (h2 : acc.loopFlush.isNone = !acc.assistant_view.finished) :
    ((processFunctionCallDelta acc fc).appended.length
      = (match (processFunctionCallDelta acc fc).loopFlush with
         | none => 0 | some s => if s = "" then 0 else 1)) ∧
    ((processFunctionCallDelta acc fc).loopFlush.isNone
      = !(processFunctionCallDelta acc fc).assistant_view.finished) := by
  have hinv : ((flushIfUnfinished acc).appended.length
      = (match (flushIfUnfinished acc).loopFlush with
         | none => 0 | some s => if s = "" then 0 else 1)) ∧
      ((flushIfUnfinished acc).loopFlush.isNone
        = !(flushIfUnfinished acc).assistant_view.finished) := by
    rcases flushIfUnfinished_flush_invariant acc h1 h2 with ⟨a, b, _⟩ | heq
    · exact ⟨a, b⟩
    · rw [heq]; exact ⟨h1, h2⟩
  unfold processFunctionCallDelta
  cases hn : fc.name with
  | some n =>
    dsimp only
    cases ha : fc.arguments with
    | some args => exact hinv
    | none => exact hinv
  | none =>
    dsimp only
    cases ha : fc.arguments with
    | some args =>
      cases hv : acc.function_view with
      | none => exact ⟨h1, h2⟩
      | some fv => exact ⟨h1, h2⟩
    | none => exact ⟨h1, h2⟩

theorem processChunk_flush_invariant (acc : StreamAcc) (c : Chunk)
    (h1 : acc.appended.length
      = (match acc.loopFlush with | none => 0 | some s => if s = "" then 0 else 1))
    (h2 : acc.loopFlush.isNone = !acc.assistant_view.finished) :
    ((processChunk acc c).appended.length
      = (match (processChunk acc c).loopFlush with
         | none => 0 | some s => if s = "" then 0 else 1)) ∧
    ((processChunk acc c).loopFlush.isNone
      = !(processChunk acc c).assistant_view.finished) := by
  have hrest : ∀ d : Delta,
      ((processDeltaRest acc d).appended.length
        = (match (processDeltaRest acc d).loopFlush with
           | none => 0 | some s => if s = "" then 0 else 1)) ∧
      ((processDeltaRest acc d).loopFlush.isNone
        = !(processDeltaRest acc d).assistant_view.finished) := by
    intro d
    unfold processDeltaRest
    cases htc : d.tool_calls with
    | some tcs =>
      have hinv : ((flushIfUnfinished acc).appended.length
          = (match (flushIfUnfinished acc).loopFlush with
             | none => 0 | some s => if s = "" then 0 else 1)) ∧
          ((flushIfUnfinished acc).loopFlush.isNone
            = !(flushIfUnfinished acc).assistant_view.finished) := by
        rcases flushIfUnfinished_flush_invariant acc h1 h2 with ⟨a, b, _⟩ | heq
        · exact ⟨a, b⟩
        · rw [heq]; exact ⟨h1, h2⟩
      obtain ⟨g1, g2, _, _, _, _⟩ := ptcd_ghost tcs (flushIfUnfinished acc)
      have g3 := ptcd_loopFlush tcs (flushIfUnfinished acc)
      constructor
      · rw [g1, g3]; exact hinv.1
      · rw [g3, g2]; exact hinv.2
    | none =>
      cases hfc : d.function_call with
      | some fc => exact pfcd_flush_invariant acc fc h1 h2
      | none => exact ⟨h1, h2⟩
  have hdelta : ∀ d : Delta,
      ((processDelta acc d).appended.length
        = (match (processDelta acc d).loopFlush with
           | none => 0 | some s => if s = "" then 0 else 1)) ∧
      ((processDelta acc d).loopFlush.isNone
        = !(processDelta acc d).assistant_view.finished) := by
    intro d
    unfold processDelta
    cases hct : d.content with
    | some s =>
      dsimp only
      by_cases hse : s ≠ ""
      · rw [if_pos hse]
        exact ⟨h1, h2⟩
      · rw [if_neg hse]
        exact hrest d
    | none => exact hrest d
  unfold processChunk
  cases hc : c.choices with
  | nil => exact ⟨h1, h2⟩
  | cons choice tail =>
    dsimp only
    cases hd : choice.delta with
    | none =>
      dsimp only
      by_cases he : acc.errored.isSome
      · rw [if_pos he]
        exact ⟨h1, h2⟩
      · rw [if_neg he]
        cases hf : choice.finish_reason with
        | some fr => exact ⟨h1, h2⟩
        | none => exact ⟨h1, h2⟩
    | some d =>
      dsimp only
      by_cases he : (processDelta acc d).errored.isSome
      · rw [if_pos he]
        exact hdelta d
      · rw [if_neg he]
        cases hf : choice.finish_reason with
        | some fr => exact hdelta d
        | none => exact hdelta d

theorem processChunks_flush_invariant :
    ∀ (cs : List Chunk) (acc : StreamAcc),
      acc.appended.length
        = (match acc.loopFlush with | none => 0 | some s => if s = "" then 0 else 1) →
      acc.loopFlush.isNone = !acc.assistant_view.finished →
      ((processChunks acc cs).appended.length
        = (match (processChunks acc cs).loopFlush with
           | none => 0 | some s => if s = "" then 0 else 1)) ∧
      ((processChunks acc cs).loopFlush.isNone
        = !(processChunks acc cs).assistant_view.finished) := by
  intro cs
  induction cs with
  | nil =>
    intro acc h1 h2
    rw [processChunks_nil]
    exact ⟨h1, h2⟩
  | cons c rest ih =>
    intro acc h1 h2
    obtain ⟨g1, g2⟩ := processChunk_flush_invariant acc c h1 h2
    rw [processChunks_cons]
    by_cases hbad : ((processChunk acc c).errored.isSome || (processChunk acc c).stopped) = true
    · rw [if_pos hbad]
      exact ⟨g1, g2⟩
    · rw [if_neg hbad]
      exact ih (processChunk acc c) g1 g2

/-- C2 (amended): for every streamed event sequence processed without error,
the number of assistant messages appended to the history for the free-text
segment is exactly one, except when a tool-call or legacy function-call-name
delta finished the turn builder while its accumulated text was empty (recorded
in the ghost field loopFlush; this covers pure tool-call turns with no text),
in which case it is zero.  In particular truncated turns and pure-text turns
append exactly one. -/
theorem C2_assistant_message_count (chunks : List Chunk)
    (he : (processStream chunks).errored = none) :
    (processStream chunks).appended.length
      = (match (processStream chunks).loopFlush with
         | none => 1 | some s => if s = "" then 0 else 1) := by
  obtain ⟨h1, h2⟩ := processChunks_flush_invariant chunks {} rfl rfl
  by_cases hbe : (processChunks {} chunks).errored.isSome
  · exfalso
    have hps : processStream chunks = processChunks {} chunks := by
      unfold processStream
      rw [if_pos hbe]
    rw [hps] at he
    rw [he] at hbe
    simp at hbe
  · have hps1 : processStream chunks
        = (if (processChunks {} chunks).assistant_view.finished
           then processChunks {} chunks
           else (processChunks {} chunks).appendMessage
             (processChunks {} chunks).assistant_view.get_message) := by
      unfold processStream
      rw [if_neg hbe]
      set acc1 := (if (processChunks {} chunks).assistant_view.finished
        then processChunks {} chunks
        else (processChunks {} chunks).appendMessage
          (processChunks {} chunks).assistant_view.get_message) with hacc1
      by_cases hf : acc1.finish_reason.isSome
      · rw [if_pos hf]
      · exfalso
        have hps : processStream chunks = { acc1 with errored := some StreamError.noFinishReason } := by
          unfold processStream
          rw [if_neg hbe, ← hacc1, if_neg hf]
        rw [hps] at he
        simp at he
    cases hfin : (processChunks {} chunks).assistant_view.finished with
    | true =>
      rw [hps1, if_pos hfin]
      rw [hfin] at h2
      cases hlf : (processChunks {} chunks).loopFlush with
      | none => rw [hlf] at h2; simp at h2
      | some s =>
        rw [hlf] at h1
        exact h1
    | false =>
      rw [hps1, if_neg (by rw [hfin]; exact Bool.false_ne_true)]
      rw [hfin] at h2
      have hnone : (processChunks {} chunks).loopFlush = none := by
        simpa using h2
      have hlen0 : (processChunks {} chunks).appended.length = 0 := by
        rw [h1, hnone]
      show ((processChunks {} chunks).appended ++ [_]).length
        = (match ((processChunks {} chunks).appendMessage
            (processChunks {} chunks).assistant_view.get_message).loopFlush with
           | none => 1 | some s => if s = "" then 0 else 1)
      have hlf2 : ((processChunks {} chunks).appendMessage
          (processChunks {} chunks).assistant_view.get_message).loopFlush
          = (processChunks {} chunks).loopFlush := rfl
      rw [hlf2, hnone]
      simp [hlen0]

/-- C2 counterexample: a pure tool-call turn with no text.  The stream is
processed without error, the terminal reason is recorded, yet zero assistant
messages are appended for the free-text segment, not exactly one as claimed. -/
theorem C2_counterexample :
    (processStream
      [toolChunk [{ index := 0, id := some "a1", function := some { name := some "add", arguments := some "(x)" } }],
       finishChunk "tool_calls"]).appended = [] ∧
    (processStream
      [toolChunk [{ index := 0, id := some "a1", function := some { name := some "add", arguments := some "(x)" } }],
       finishChunk "tool_calls"]).errored = none ∧
    (processStream
      [toolChunk [{ index := 0, id := some "a1", function := some { name := some "add", arguments := some "(x)" } }],
       finishChunk "tool_calls"]).finish_reason = some "tool_calls" := by
  decide

/-- C2 witness: the amended count theorem applied to a pure-text turn, where
exactly one assistant message is appended. -/
theorem C2_witness :
    (processStream [textChunk "hi", finishChunk "stop"]).errored = none ∧
    (processStream [textChunk "hi", finishChunk "stop"]).appended.length
      = (match (processStream [textChunk "hi", finishChunk "stop"]).loopFlush with
         | none => 1 | some s => if s = "" then 0 else 1) :=
  ⟨by decide, C2_assistant_message_count [textChunk "hi", finishChunk "stop"] (by decide)⟩

theorem pfcd_stopped_finish (acc : StreamAcc) (fc : FunctionCallDelta) :
    (processFunctionCallDelta acc fc).stopped = acc.stopped ∧
    (processFunctionCallDelta acc fc).finish_reason = acc.finish_reason := by
  unfold processFunctionCallDelta
  cases hn : fc.name with
  | some n =>
    dsimp only
    cases ha : fc.arguments with
    | some args =>
      constructor
      · show (flushIfUnfinished acc).stopped = acc.stopped
        exact flushIfUnfinished_stopped acc
      · show (flushIfUnfinished acc).finish_reason = acc.finish_reason
        exact flushIfUnfinished_finish_reason acc
    | none =>
      constructor
      · show (flushIfUnfinished acc).stopped = acc.stopped
        exact flushIfUnfinished_stopped acc
      · show (flushIfUnfinished acc).finish_reason = acc.finish_reason
        exact flushIfUnfinished_finish_reason acc
  | none =>
    dsimp only
    cases ha : fc.arguments with
    | some args =>
      cases hv : acc.function_view with
      | none => exact ⟨rfl, rfl⟩
      | some fv => exact ⟨rfl, rfl⟩
    | none => exact ⟨rfl, rfl⟩

theorem processDelta_stopped_finish (acc : StreamAcc) (d : Delta) :
    (processDelta acc d).stopped = acc.stopped ∧
    (processDelta acc d).finish_reason = acc.finish_reason := by
  have hrest : (processDeltaRest acc d).stopped = acc.stopped ∧
      (processDeltaRest acc d).finish_reason = acc.finish_reason := by
    unfold processDeltaRest
    cases htc : d.tool_calls with
    | some tcs =>
      obtain ⟨_, _, g3, g4, _, _⟩ := ptcd_ghost tcs (flushIfUnfinished acc)
      constructor
      · rw [g3]; exact flushIfUnfinished_stopped acc
      · rw [g4]; exact flushIfUnfinished_finish_reason acc
    | none =>
      cases hfc : d.function_call with
      | some fc => exact pfcd_stopped_finish acc fc
      | none => exact ⟨rfl, rfl⟩
  unfold processDelta
  cases hct : d.content with
  | some s =>
    dsimp only
    by_cases hse : s ≠ ""
    · rw [if_pos hse]
      exact ⟨rfl, rfl⟩
    · rw [if_neg hse]
      exact hrest
  | none => exact hrest

theorem processChunks_noTerminal :
    ∀ (chunks : List Chunk) (acc : StreamAcc),
      (∀ c ∈ chunks, ∀ ch ∈ c.choices, ch.finish_reason = none) →
      (processChunks acc chunks).finish_reason = acc.finish_reason ∧
      (processChunks acc chunks).stopped = acc.stopped := by
  intro chunks
  induction chunks with
  | nil =>
    intro acc _
    rw [processChunks_nil]
    exact ⟨rfl, rfl⟩
  | cons c cs ih =>
    intro acc hnt
    have hc : ∀ ch ∈ c.choices, ch.finish_reason = none :=
      hnt c (List.mem_cons_self c cs)
    have hcs : ∀ x ∈ cs, ∀ ch ∈ x.choices, ch.finish_reason = none :=
      fun x hx => hnt x (List.mem_cons_of_mem c hx)
    have hpc : (processChunk acc c).finish_reason = acc.finish_reason ∧
        (processChunk acc c).stopped = acc.stopped := by
      unfold processChunk
      cases hcc : c.choices with
      | nil => exact ⟨rfl, rfl⟩
      | cons choice tail =>
        dsimp only
        have hfr : choice.finish_reason = none :=
          hc choice (by rw [hcc]; exact List.mem_cons_self choice tail)
        cases hd : choice.delta with
        | none =>
          dsimp only
          by_cases he : acc.errored.isSome
          · rw [if_pos he]
            exact ⟨rfl, rfl⟩
          · rw [if_neg he, hfr]
            exact ⟨rfl, rfl⟩
        | some d =>
          dsimp only
          by_cases he : (processDelta acc d).errored.isSome
          · rw [if_pos he]
            obtain ⟨hst, hfi⟩ := processDelta_stopped_finish acc d
            exact ⟨hfi, hst⟩
          · rw [if_neg he, hfr]
            obtain ⟨hst, hfi⟩ := processDelta_stopped_finish acc d
            exact ⟨hfi, hst⟩
    rw [processChunks_cons]
    by_cases hbad : ((processChunk acc c).errored.isSome || (processChunk acc c).stopped) = true
    · rw [if_pos hbad]
      exact hpc
    · rw [if_neg hbad]
      obtain ⟨g1, g2⟩ := ih (processChunk acc c) hcs
      exact ⟨by rw [g1, hpc.1], by rw [g2, hpc.2]⟩

theorem ptcd_no_error :
    ∀ (ds : List ToolCallDelta) (acc : StreamAcc),
      (∀ tc ∈ ds, tc.function.isSome = true) →
      (processToolCallDeltas acc ds).errored = acc.errored := by
  intro ds
  induction ds with
  | nil => intro acc _; rw [ptcd_nil]
  | cons tc rest ih =>
    intro acc hall
    have hfn : tc.function.isSome = true := hall tc (List.mem_cons_self tc rest)
    have hrest : ∀ x ∈ rest, x.function.isSome = true :=
      fun x hx => hall x (List.mem_cons_of_mem tc hx)
    obtain ⟨f, hf⟩ := Option.isSome_iff_exists.mp hfn
    by_cases hidx : tc.index < acc.tool_calls.length
    · cases harg : f.arguments with
      | some a =>
        have hone : processToolCallDeltas acc (tc :: rest)
            = processToolCallDeltas
                { acc with tool_calls :=
                    modifyIdx (fun t => t.append_arguments a) tc.index acc.tool_calls } rest := by
          simp [processToolCallDeltas, hf, harg, if_pos hidx]
        rw [hone]; exact ih _ hrest
      | none =>
        have hone : processToolCallDeltas acc (tc :: rest) = processToolCallDeltas acc rest := by
          simp [processToolCallDeltas, hf, harg, if_pos hidx]
        rw [hone]; exact ih _ hrest
    · cases hid : tc.id with
      | none =>
        have hone : processToolCallDeltas acc (tc :: rest) = processToolCallDeltas acc rest := by
          cases hn : f.name <;> cases ha : f.arguments <;>
            simp [processToolCallDeltas, hf, hid, hn, ha, if_neg hidx]
        rw [hone]; exact ih _ hrest
      | some i0 =>
        cases hn : f.name with
        | none =>
          have hone : processToolCallDeltas acc (tc :: rest) = processToolCallDeltas acc rest := by
            cases ha : f.arguments <;>
              simp [processToolCallDeltas, hf, hid, hn, ha, if_neg hidx]
          rw [hone]; exact ih _ hrest
        | some n0 =>
          cases ha : f.arguments with
          | none =>
            have hone : processToolCallDeltas acc (tc :: rest) = processToolCallDeltas acc rest := by
              simp [processToolCallDeltas, hf, hid, hn, ha, if_neg hidx]
            rw [hone]; exact ih _ hrest
          | some a0 =>
            have hone : processToolCallDeltas acc (tc :: rest)
                = processToolCallDeltas
                    { acc with
                        tool_calls := acc.tool_calls
                          ++ [{ id := i0, name := n0, arguments := a0 }],
                        trace := acc.trace
                          ++ [TraceAction.create { id := i0, name := n0, arguments := a0 }] }
                    rest := by
              simp [processToolCallDeltas, hf, hid, hn, ha, if_neg hidx]
            rw [hone]
            exact ih _ hrest

theorem pfcd_no_error (acc : StreamAcc) (fc : FunctionCallDelta)
    (h : (fc.arguments.isNone || fc.name.isSome) = true) :
    (processFunctionCallDelta acc fc).errored = acc.errored := by
  unfold processFunctionCallDelta
  cases hn : fc.name with
  | some n =>
    dsimp only
    cases ha : fc.arguments with
    | some args => exact flushIfUnfinished_errored acc
    | none => exact flushIfUnfinished_errored acc
  | none =>
    dsimp only
    cases ha : fc.arguments with
    | some args =>
      exfalso
      rw [hn, ha] at h
      simp at h
    | none => rfl

theorem processChunks_wf_no_error :
    ∀ (chunks : List Chunk) (acc : StreamAcc),
      (∀ c ∈ chunks, wfChunkB c = true) →
      (processChunks acc chunks).errored = acc.errored := by
  intro chunks
  induction chunks with
  | nil => intro acc _; rw [processChunks_nil]
  | cons c cs ih =>
    intro acc hwf
    have hc : wfChunkB c = true := hwf c (List.mem_cons_self c cs)
    have hcs : ∀ x ∈ cs, wfChunkB x = true := fun x hx => hwf x (List.mem_cons_of_mem c hx)
    have hpc : (processChunk acc c).errored = acc.errored := by
      unfold processChunk
      cases hcc : c.choices with
      | nil => rfl
      | cons choice tail =>
        dsimp only
        cases hd : choice.delta with
        | none =>
          dsimp only
          by_cases he : acc.errored.isSome
          · rw [if_pos he]
          · rw [if_neg he]
            cases hf : choice.finish_reason with
            | some fr => rfl
            | none => rfl
        | some d =>
          simp only [wfChunkB, hcc, hd, Bool.and_eq_true] at hc
          obtain ⟨htc, hfc⟩ := hc
          have hpd : (processDelta acc d).errored = acc.errored := by
            have hrest : (processDeltaRest acc d).errored = acc.errored := by
              unfold processDeltaRest
              cases htcs : d.tool_calls with
              | some tcs =>
                rw [htcs] at htc
                have hall : ∀ tc ∈ tcs, tc.function.isSome = true := by
                  simpa [List.all_eq_true] using htc
                rw [ptcd_no_error tcs (flushIfUnfinished acc) hall]
                exact flushIfUnfinished_errored acc
              | none =>
                cases hfcd : d.function_call with
                | some fc =>
                  rw [hfcd] at hfc
                  exact pfcd_no_error acc fc hfc
                | none => rfl
            unfold processDelta
            cases hct : d.content with
            | some s =>
              dsimp only
              by_cases hse : s ≠ ""
              · rw [if_pos hse]
              · rw [if_neg hse]
                exact hrest
            | none => exact hrest
          dsimp only
          by_cases he : (processDelta acc d).errored.isSome
          · rw [if_pos he]
            exact hpd
          · rw [if_neg he]
            cases hf : choice.finish_reason with
            | some fr => exact hpd
            | none => exact hpd
    rw [processChunks_cons]
    by_cases hbad : ((processChunk acc c).errored.isSome || (processChunk acc c).stopped) = true
    · rw [if_pos hbad]
      exact hpc
    · rw [if_neg hbad]
      rw [ih (processChunk acc c) hcs, hpc]

theorem submit_streamOk_error (reg : FunctionRegistry) (fuel : Nat) (st : ChatState)
    (rest : List ServiceResponse) (inputs : List Input) (chunks : List Chunk) (e : StreamError)
    (h : (processStream chunks).errored = some e) :
    submit reg (fuel + 1) st (ServiceResponse.streamOk chunks :: rest) inputs
      = { state := { st with messages := st.messages ++ inputs.map Input.toMessage
            ++ (processStream chunks).appended },
          rest := rest, outcome := Outcome.error (SubmitError.streamError e) } := by
  simp only [submit]
  rw [h]

theorem processStream_noTerminal (chunks : List Chunk)
    (hnt : ∀ c ∈ chunks, ∀ ch ∈ c.choices, ch.finish_reason = none) :
    ∃ e, (processStream chunks).errored = some e ∧
      ((∀ c ∈ chunks, wfChunkB c = true) → e = StreamError.noFinishReason) := by
  obtain ⟨hfr, _⟩ := processChunks_noTerminal chunks {} hnt
  by_cases hbe : (processChunks {} chunks).errored.isSome
  · obtain ⟨e, he⟩ := Option.isSome_iff_exists.mp hbe
    refine ⟨e, ?_, ?_⟩
    · unfold processStream
      rw [if_pos hbe]
      exact he
    · intro hwf
      exfalso
      rw [processChunks_wf_no_error chunks {} hwf] at he
      simp at he
  · refine ⟨StreamError.noFinishReason, ?_, fun _ => rfl⟩
    unfold processStream
    rw [if_neg hbe]
    by_cases hfin : (processChunks {} chunks).assistant_view.finished
    · rw [if_pos hfin]
      rw [if_neg (by rw [hfr]; simp)]
    · rw [if_neg hfin]
      rw [if_neg (by rw [appendMessage_finish_reason, hfr]; simp)]

/-- C6 (amended): a streamed event sequence containing no terminal-reason
marker in any event always makes submit fail with an uncaught stream error
rather than returning normally; when the stream is additionally free of
malformed deltas (every tool-call delta has its function payload and no legacy
arguments-without-name delta occurs), the error is specifically the
no-finish-reason ValueError. -/
theorem C6_no_terminal_fails (reg : FunctionRegistry) (fuel : Nat) (st : ChatState)
    (rest : List ServiceResponse) (inputs : List Input) (chunks : List Chunk)
    (hnt : ∀ c ∈ chunks, ∀ ch ∈ c.choices, ch.finish_reason = none) :
    (∃ e, (submit reg (fuel + 1) st (ServiceResponse.streamOk chunks :: rest) inputs).outcome
        = Outcome.error (SubmitError.streamError e)) ∧
    ((∀ c ∈ chunks, wfChunkB c = true) →
      (submit reg (fuel + 1) st (ServiceResponse.streamOk chunks :: rest) inputs).outcome
        = Outcome.error (SubmitError.streamError StreamError.noFinishReason)) := by
  obtain ⟨e, he, hwfe⟩ := processStream_noTerminal chunks hnt
  have hsub := submit_streamOk_error reg fuel st rest inputs chunks e he
  constructor
  · exact ⟨e, by rw [hsub]⟩
  · intro hwf
    rw [hsub]
    rw [hwfe hwf]

/-- C6 counterexample: a stream with no terminal-reason marker that also
contains a tool-call delta without its function payload.  submit fails, but
with the malformed-delta ValueError of line 163, not the designated
NoTerminalReasonError of line 215. -/
theorem C6_counterexample :
    ([toolChunk [{ index := 0, id := none, function := none }]].all
      (fun c => c.choices.all fun ch => ch.finish_reason.isNone)) = true ∧
    (submit (fun _ => none) 1 { messages := [] }
      [ServiceResponse.streamOk [toolChunk [{ index := 0, id := none, function := none }]]]
      []).outcome
      = Outcome.error (SubmitError.streamError StreamError.toolCallWithoutFunction) ∧
    (submit (fun _ => none) 1 { messages := [] }
      [ServiceResponse.streamOk [toolChunk [{ index := 0, id := none, function := none }]]]
      []).outcome
      ≠ Outcome.error (SubmitError.streamError StreamError.noFinishReason) := by
  decide

/-- C6 witness: the amended theorem applied to a well-formed stream consisting
of a single text delta and no terminal marker. -/
theorem C6_witness :
    ([textChunk "hi"].all (fun c => c.choices.all fun ch => ch.finish_reason.isNone)) = true ∧
    (submit (fun _ => none) 1 { messages := [] }
      [ServiceResponse.streamOk [textChunk "hi"]] []).outcome
      = Outcome.error (SubmitError.streamError StreamError.noFinishReason) :=
  ⟨by decide,
    (C6_no_terminal_fails (fun _ => none) 0 { messages := [] } [] [] [textChunk "hi"]
      (by decide)).2 (by decide)⟩

theorem foldl_toolResults (reg : FunctionRegistry) :
    ∀ (tcs : List ToolArguments) (st : ChatState),
      (tcs.foldl
        (fun s ta => { s with messages := s.messages ++ [toolCalledMessage reg ta] }) st).messages
        = st.messages ++ tcs.map (toolCalledMessage reg) ∧
      (tcs.foldl
        (fun s ta => { s with messages := s.messages ++ [toolCalledMessage reg ta] }) st).sleeps
        = st.sleeps := by
  intro tcs
  induction tcs with
  | nil => intro st; exact ⟨by simp, rfl⟩
  | cons ta rest ih =>
    intro st
    rw [List.foldl_cons]
    obtain ⟨h1, h2⟩ := ih { st with messages := st.messages ++ [toolCalledMessage reg ta] }
    constructor
    · rw [h1]
      simp
    · rw [h2]

theorem dispatch_state (reg : FunctionRegistry) (st : ChatState) (finish : String)
    (fv : Option ToolArguments) (tcs : List ToolArguments) :
    (∃ tail, (dispatch reg st finish fv tcs).1.messages = st.messages ++ tail) ∧
    (dispatch reg st finish fv tcs).1.sleeps = st.sleeps := by
  unfold dispatch
  by_cases h1 : finish = "function_call"
  · rw [if_pos h1]
    cases fv with
    | none => exact ⟨⟨[], by simp⟩, rfl⟩
    | some f =>
      refine ⟨⟨[f.get_function_message, functionCalledMessage reg f], ?_⟩, rfl⟩
      simp
  · rw [if_neg h1]
    by_cases h2 : finish = "tool_calls" ∧ tcs ≠ []
    · rw [if_pos h2]
      obtain ⟨g1, g2⟩ := foldl_toolResults reg tcs st
      exact ⟨⟨tcs.map (toolCalledMessage reg), g1⟩, g2⟩
    · rw [if_neg h2]
      exact ⟨⟨[], by simp⟩, rfl⟩

theorem submit_extends (reg : FunctionRegistry) :
    ∀ (fuel : Nat) (st : ChatState) (script : List ServiceResponse) (inputs : List Input),
      ∃ tail, (submit reg fuel st script inputs).state.messages = st.messages ++ tail := by
  intro fuel
  induction fuel with
  | zero =>
    intro st script inputs
    exact ⟨[], by simp [submit]⟩
  | succ fuel ih =>
    intro st script inputs
    cases script with
    | nil => exact ⟨[], by simp [submit]⟩
    | cons resp rest =>
      cases resp with
      | throttled =>
        obtain ⟨tail, htail⟩ := ih { st with sleeps := st.sleeps ++ [5] } rest inputs
        exact ⟨tail, by simp only [submit]; exact htail⟩
      | requestError => exact ⟨[], by simp [submit]⟩
      | streamOk chunks =>
        simp only [submit]
        cases herr : (processStream chunks).errored with
        | some e =>
          refine ⟨inputs.map Input.toMessage ++ (processStream chunks).appended, ?_⟩
          dsimp only
          rw [List.append_assoc]
        | none =>
          dsimp only
          rcases hdp : dispatch reg
            { st with messages := st.messages ++ inputs.map Input.toMessage
                ++ (processStream chunks).appended }
            ((processStream chunks).finish_reason.getD "") (processStream chunks).function_view
            (processStream chunks).tool_calls with ⟨st3, out⟩
          obtain ⟨dtail, hdtail⟩ := dispatch_state reg
            { st with messages := st.messages ++ inputs.map Input.toMessage
                ++ (processStream chunks).appended }
            ((processStream chunks).finish_reason.getD "") (processStream chunks).function_view
            (processStream chunks).tool_calls |>.1
          rw [hdp] at hdtail
          cases out with
          | done outcome =>
            refine ⟨inputs.map Input.toMessage ++ (processStream chunks).appended ++ dtail, ?_⟩
            dsimp only
            rw [hdtail]
            simp [List.append_assoc]
          | recurse =>
            obtain ⟨tail2, htail2⟩ := ih st3 rest []
            refine ⟨inputs.map Input.toMessage ++ (processStream chunks).appended
              ++ dtail ++ tail2, ?_⟩
            dsimp only
            rw [htail2, hdtail]
            simp [List.append_assoc]
      | fullOk resp =>
        simp only [submit]
        rcases hdp : dispatch reg
          { st with messages := st.messages ++ inputs.map Input.toMessage
              ++ (processFullCompletion resp).appended }
          (processFullCompletion resp).finish_reason (processFullCompletion resp).function_view
          (processFullCompletion resp).tool_calls with ⟨st3, out⟩
        obtain ⟨dtail, hdtail⟩ := dispatch_state reg
          { st with messages := st.messages ++ inputs.map Input.toMessage
              ++ (processFullCompletion resp).appended }
          (processFullCompletion resp).finish_reason (processFullCompletion resp).function_view
          (processFullCompletion resp).tool_calls |>.1
        rw [hdp] at hdtail
        cases out with
        | done outcome =>
          refine ⟨inputs.map Input.toMessage ++ (processFullCompletion resp).appended
            ++ dtail, ?_⟩
          dsimp only
          rw [hdtail]
          simp [List.append_assoc]
        | recurse =>
          obtain ⟨tail2, htail2⟩ := ih st3 rest []
          refine ⟨inputs.map Input.toMessage ++ (processFullCompletion resp).appended
            ++ dtail ++ tail2, ?_⟩
          dsimp only
          rw [htail2, hdtail]
          simp [List.append_assoc]

/-- C7: new inputs are appended to the owned history only once the completion
request has been accepted.  If issuing the request fails other than by
throttling, submit propagates the failure and the history (and the whole chat
state) is exactly as before the attempt; on an accepted response, streaming or
not, the resulting history is the old history followed by the converted inputs
followed only by messages produced by processing the response. -/
theorem C7_inputs_appended_after_acceptance (reg : FunctionRegistry) (fuel : Nat)
    (st : ChatState) (rest : List ServiceResponse) (inputs : List Input) :
    submit reg (fuel + 1) st (ServiceResponse.requestError :: rest) inputs
      = { state := st, rest := rest, outcome := Outcome.error SubmitError.requestFailed } ∧
    (∀ chunks, ∃ tail,
      (submit reg (fuel + 1) st (ServiceResponse.streamOk chunks :: rest) inputs).state.messages
        = st.messages ++ inputs.map Input.toMessage ++ tail) ∧
    (∀ resp, ∃ tail,
      (submit reg (fuel + 1) st (ServiceResponse.fullOk resp :: rest) inputs).state.messages
        = st.messages ++ inputs.map Input.toMessage ++ tail) := by
  refine ⟨rfl, ?_, ?_⟩
  · intro chunks
    simp only [submit]
    cases herr : (processStream chunks).errored with
    | some e => exact ⟨(processStream chunks).appended, rfl⟩
    | none =>
      dsimp only
      rcases hdp : dispatch reg
        { st with messages := st.messages ++ inputs.map Input.toMessage
            ++ (processStream chunks).appended }
        ((processStream chunks).finish_reason.getD "") (processStream chunks).function_view
        (processStream chunks).tool_calls with ⟨st3, out⟩
      obtain ⟨dtail, hdtail⟩ := dispatch_state reg
        { st with messages := st.messages ++ inputs.map Input.toMessage
            ++ (processStream chunks).appended }
        ((processStream chunks).finish_reason.getD "") (processStream chunks).function_view
        (processStream chunks).tool_calls |>.1
      rw [hdp] at hdtail
      cases out with
      | done outcome =>
        refine ⟨(processStream chunks).appended ++ dtail, ?_⟩
        dsimp only
        rw [hdtail]
        simp [List.append_assoc]
      | recurse =>
        obtain ⟨tail2, htail2⟩ := submit_extends reg fuel st3 rest []
        refine ⟨(processStream chunks).appended ++ dtail ++ tail2, ?_⟩
        dsimp only
        rw [htail2, hdtail]
        simp [List.append_assoc]
  · intro resp
    simp only [submit]
    rcases hdp : dispatch reg
      { st with messages := st.messages ++ inputs.map Input.toMessage
          ++ (processFullCompletion resp).appended }
      (processFullCompletion resp).finish_reason (processFullCompletion resp).function_view
      (processFullCompletion resp).tool_calls with ⟨st3, out⟩
    obtain ⟨dtail, hdtail⟩ := dispatch_state reg
      { st with messages := st.messages ++ inputs.map Input.toMessage
          ++ (processFullCompletion resp).appended }
      (processFullCompletion resp).finish_reason (processFullCompletion resp).function_view
      (processFullCompletion resp).tool_calls |>.1
    rw [hdp] at hdtail
    cases out with
    | done outcome =>
      refine ⟨(processFullCompletion resp).appended ++ dtail, ?_⟩
      dsimp only
      rw [hdtail]
      simp [List.append_assoc]
    | recurse =>
      obtain ⟨tail2, htail2⟩ := submit_extends reg fuel st3 rest []
      refine ⟨(processFullCompletion resp).appended ++ dtail ++ tail2, ?_⟩
      dsimp only
      rw [htail2, hdtail]
      simp [List.append_assoc]

theorem dispatch_eq_fc_missing (reg : FunctionRegistry) (st : ChatState) (finish : String)
    (tcs : List ToolArguments) (h1 : finish = "function_call") :
    dispatch reg st finish none tcs
      = (st, DispatchOut.done (Outcome.error SubmitError.functionCallMissing)) := by
  unfold dispatch
  rw [if_pos h1]

theorem dispatch_eq_fc (reg : FunctionRegistry) (st : ChatState) (finish : String)
    (tcs : List ToolArguments) (f : ToolArguments) (h1 : finish = "function_call") :
    dispatch reg st finish (some f) tcs
      = ({ st with messages := st.messages ++ [f.get_function_message]
            ++ [functionCalledMessage reg f] }, DispatchOut.recurse) := by
  unfold dispatch
  rw [if_pos h1]

theorem dispatch_eq_tools (reg : FunctionRegistry) (st : ChatState) (finish : String)
    (fv : Option ToolArguments) (tcs : List ToolArguments)
    (h1 : ¬ finish = "function_call") (h2 : finish = "tool_calls" ∧ tcs ≠ []) :
    dispatch reg st finish fv tcs
      = (tcs.foldl
          (fun s ta => { s with messages := s.messages ++ [toolCalledMessage reg ta] }) st,
         DispatchOut.recurse) := by
  unfold dispatch
  rw [if_neg h1, if_pos h2]

theorem dispatch_eq_done (reg : FunctionRegistry) (st : ChatState) (finish : String)
    (fv : Option ToolArguments) (tcs : List ToolArguments)
    (h1 : ¬ finish = "function_call") (h2 : ¬ (finish = "tool_calls" ∧ tcs ≠ [])) :
    dispatch reg st finish fv tcs = (st, DispatchOut.done Outcome.ok) := by
  unfold dispatch
  rw [if_neg h1, if_neg h2]

theorem dispatch_congr (reg : FunctionRegistry) (finish : String) (fv : Option ToolArguments)
    (tcs : List ToolArguments) (st1 st2 : ChatState) (h : st1.messages = st2.messages) :
    (dispatch reg st1 finish fv tcs).1.messages = (dispatch reg st2 finish fv tcs).1.messages ∧
    (dispatch reg st1 finish fv tcs).2 = (dispatch reg st2 finish fv tcs).2 := by
  by_cases h1 : finish = "function_call"
  · cases fv with
    | none =>
      rw [dispatch_eq_fc_missing reg st1 finish tcs h1, dispatch_eq_fc_missing reg st2 finish tcs h1]
      exact ⟨h, rfl⟩
    | some f =>
      rw [dispatch_eq_fc reg st1 finish tcs f h1, dispatch_eq_fc reg st2 finish tcs f h1]
      constructor
      · show st1.messages ++ _ ++ _ = st2.messages ++ _ ++ _
        rw [h]
      · rfl
  · by_cases h2 : finish = "tool_calls" ∧ tcs ≠ []
    · rw [dispatch_eq_tools reg st1 finish fv tcs h1 h2, dispatch_eq_tools reg st2 finish fv tcs h1 h2]
      constructor
      · show (tcs.foldl _ st1).messages = (tcs.foldl _ st2).messages
        rw [(foldl_toolResults reg tcs st1).1, (foldl_toolResults reg tcs st2).1, h]
      · rfl
    · rw [dispatch_eq_done reg st1 finish fv tcs h1 h2, dispatch_eq_done reg st2 finish fv tcs h1 h2]
      exact ⟨h, rfl⟩

theorem submit_messages_congr (reg : FunctionRegistry) :
    ∀ (fuel : Nat) (script : List ServiceResponse) (inputs : List Input)
      (st1 st2 : ChatState), st1.messages = st2.messages →
      (submit reg fuel st1 script inputs).state.messages
        = (submit reg fuel st2 script inputs).state.messages ∧
      (submit reg fuel st1 script inputs).rest = (submit reg fuel st2 script inputs).rest ∧
      (submit reg fuel st1 script inputs).outcome
        = (submit reg fuel st2 script inputs).outcome := by
  intro fuel
  induction fuel with
  | zero =>
    intro script inputs st1 st2 h
    exact ⟨h, rfl, rfl⟩
  | succ fuel ih =>
    intro script inputs st1 st2 h
    cases script with
    | nil => exact ⟨h, rfl, rfl⟩
    | cons resp rest =>
      cases resp with
      | throttled =>
        exact ih rest inputs { st1 with sleeps := st1.sleeps ++ [5] }
          { st2 with sleeps := st2.sleeps ++ [5] } h
      | requestError => exact ⟨h, rfl, rfl⟩
      | streamOk chunks =>
        simp only [submit]
        cases herr : (processStream chunks).errored with
        | some e =>
          dsimp only
          refine ⟨?_, rfl, rfl⟩
          show st1.messages ++ _ ++ _ = st2.messages ++ _ ++ _
          rw [h]
        | none =>
          dsimp only
          have hmsg : ({ st1 with messages := st1.messages ++ inputs.map Input.toMessage
              ++ (processStream chunks).appended } : ChatState).messages
              = ({ st2 with messages := st2.messages ++ inputs.map Input.toMessage
                  ++ (processStream chunks).appended } : ChatState).messages := by
            show st1.messages ++ _ ++ _ = st2.messages ++ _ ++ _
            rw [h]
          obtain ⟨hd1, hd2⟩ := dispatch_congr reg
            ((processStream chunks).finish_reason.getD "") (processStream chunks).function_view
            (processStream chunks).tool_calls _ _ hmsg
          rcases hda : dispatch reg
            { st1 with messages := st1.messages ++ inputs.map Input.toMessage
                ++ (processStream chunks).appended }
            ((processStream chunks).finish_reason.getD "") (processStream chunks).function_view
            (processStream chunks).tool_calls with ⟨a3, outa⟩
          rcases hdb : dispatch reg
            { st2 with messages := st2.messages ++ inputs.map Input.toMessage
                ++ (processStream chunks).appended }
            ((processStream chunks).finish_reason.getD "") (processStream chunks).function_view
            (processStream chunks).tool_calls with ⟨b3, outb⟩
          rw [hda, hdb] at hd1 hd2
          dsimp only at hd1 hd2
          cases outa with
          | done outcome =>
            rw [← hd2]
            exact ⟨hd1, rfl, rfl⟩
          | recurse =>
            rw [← hd2]
            exact ih rest [] a3 b3 hd1
      | fullOk resp =>
        simp only [submit]
        have hmsg : ({ st1 with messages := st1.messages ++ inputs.map Input.toMessage
            ++ (processFullCompletion resp).appended } : ChatState).messages
            = ({ st2 with messages := st2.messages ++ inputs.map Input.toMessage
                ++ (processFullCompletion resp).appended } : ChatState).messages := by
          show st1.messages ++ _ ++ _ = st2.messages ++ _ ++ _
          rw [h]
        obtain ⟨hd1, hd2⟩ := dispatch_congr reg
          (processFullCompletion resp).finish_reason (processFullCompletion resp).function_view
          (processFullCompletion resp).tool_calls _ _ hmsg
        rcases hda : dispatch reg
          { st1 with messages := st1.messages ++ inputs.map Input.toMessage
              ++ (processFullCompletion resp).appended }
          (processFullCompletion resp).finish_reason (processFullCompletion resp).function_view
          (processFullCompletion resp).tool_calls with ⟨a3, outa⟩
        rcases hdb : dispatch reg
          { st2 with messages := st2.messages ++ inputs.map Input.toMessage
              ++ (processFullCompletion resp).appended }
          (processFullCompletion resp).finish_reason (processFullCompletion resp).function_view
          (processFullCompletion resp).tool_calls with ⟨b3, outb⟩
        rw [hda, hdb] at hd1 hd2
        dsimp only at hd1 hd2
        cases outa with
        | done outcome =>
          rw [← hd2]
          exact ⟨hd1, rfl, rfl⟩
        | recurse =>
          rw [← hd2]
          exact ih rest [] a3 b3 hd1

theorem submit_no_throttle_sleeps (reg : FunctionRegistry) :
    ∀ (fuel : Nat) (st : ChatState) (script : List ServiceResponse) (inputs : List Input),
      ServiceResponse.throttled ∉ script →
      (submit reg fuel st script inputs).state.sleeps = st.sleeps := by
  intro fuel
  induction fuel with
  | zero => intro st script inputs _; rfl
  | succ fuel ih =>
    intro st script inputs hnt
    cases script with
    | nil => rfl
    | cons resp rest =>
      have hrest : ServiceResponse.throttled ∉ rest :=
        fun hmem => hnt (List.mem_cons_of_mem resp hmem)
      cases resp with
      | throttled => exact absurd (List.mem_cons_self _ rest) hnt
      | requestError => rfl
      | streamOk chunks =>
        simp only [submit]
        cases herr : (processStream chunks).errored with
        | some e => rfl
        | none =>
          dsimp only
          rcases hda : dispatch reg
            { st with messages := st.messages ++ inputs.map Input.toMessage
                ++ (processStream chunks).appended }
            ((processStream chunks).finish_reason.getD "") (processStream chunks).function_view
            (processStream chunks).tool_calls with ⟨st3, out⟩
          have hsl := dispatch_state reg
            { st with messages := st.messages ++ inputs.map Input.toMessage
                ++ (processStream chunks).appended }
            ((processStream chunks).finish_reason.getD "") (processStream chunks).function_view
            (processStream chunks).tool_calls |>.2
          rw [hda] at hsl
          dsimp only at hsl
          cases out with
          | done outcome => exact hsl
          | recurse => rw [ih st3 rest [] hrest, hsl]
      | fullOk resp =>
        simp only [submit]
        rcases hda : dispatch reg
          { st with messages := st.messages ++ inputs.map Input.toMessage
              ++ (processFullCompletion resp).appended }
          (processFullCompletion resp).finish_reason (processFullCompletion resp).function_view
          (processFullCompletion resp).tool_calls with ⟨st3, out⟩
        have hsl := dispatch_state reg
          { st with messages := st.messages ++ inputs.map Input.toMessage
              ++ (processFullCompletion resp).appended }
          (processFullCompletion resp).finish_reason (processFullCompletion resp).function_view
          (processFullCompletion resp).tool_calls |>.2
        rw [hda] at hsl
        dsimp only at hsl
        cases out with
        | done outcome => exact hsl
        | recurse => rw [ih st3 rest [] hrest, hsl]

/-- C8: on a throttling signal submit waits the fixed 5-unit backoff and
retries the whole call with identical arguments: the run on a throttled script
is literally the retry run with one 5-unit sleep recorded.  When the retry is
not throttled again, exactly one backoff wait of 5 units is recorded and the
final history equals the history of the non-throttled run. -/
theorem C8_throttle_retry (reg : FunctionRegistry) (fuel : Nat) (st : ChatState)
    (rest : List ServiceResponse) (inputs : List Input)
    (h : ServiceResponse.throttled ∉ rest) :
    submit reg (fuel + 1) st (ServiceResponse.throttled :: rest) inputs
      = submit reg fuel { st with sleeps := st.sleeps ++ [5] } rest inputs ∧
    (submit reg (fuel + 1) st (ServiceResponse.throttled :: rest) inputs).state.messages
      = (submit reg fuel st rest inputs).state.messages ∧
    (submit reg (fuel + 1) st (ServiceResponse.throttled :: rest) inputs).state.sleeps
      = st.sleeps ++ [5] := by
  have h1 : submit reg (fuel + 1) st (ServiceResponse.throttled :: rest) inputs
      = submit reg fuel { st with sleeps := st.sleeps ++ [5] } rest inputs := by
    simp only [submit]
  refine ⟨h1, ?_, ?_⟩
  · rw [h1]
    exact (submit_messages_congr reg fuel rest inputs
      { st with sleeps := st.sleeps ++ [5] } st rfl).1
  · rw [h1]
    exact submit_no_throttle_sleeps reg fuel { st with sleeps := st.sleeps ++ [5] } rest inputs h

/-- C8 witness: the retry theorem applied to a script that throttles once and
then succeeds with a plain text turn. -/
theorem C8_witness :
    ServiceResponse.throttled
      ∉ [ServiceResponse.streamOk [textChunk "ok", finishChunk "stop"]] ∧
    (submit (fun _ => none) 2 { messages := [] }
      (ServiceResponse.throttled :: [ServiceResponse.streamOk [textChunk "ok", finishChunk "stop"]])
      [Input.str "q"]).state.sleeps
      = ({ messages := [] } : ChatState).sleeps ++ [5] ∧
    (submit (fun _ => none) 2 { messages := [] }
      (ServiceResponse.throttled :: [ServiceResponse.streamOk [textChunk "ok", finishChunk "stop"]])
      [Input.str "q"]).state.messages
      = (submit (fun _ => none) 1 { messages := [] }
          [ServiceResponse.streamOk [textChunk "ok", finishChunk "stop"]]
          [Input.str "q"]).state.messages :=
  ⟨by decide,
    (C8_throttle_retry (fun _ => none) 1 { messages := [] }
      [ServiceResponse.streamOk [textChunk "ok", finishChunk "stop"]] [Input.str "q"]
      (by decide)).2.2,
    (C8_throttle_retry (fun _ => none) 1 { messages := [] }
      [ServiceResponse.streamOk [textChunk "ok", finishChunk "stop"]] [Input.str "q"]
      (by decide)).2.1⟩

/-- C9: when a streamed turn ends with terminal reason function_call, submit
raises the fatal ValueError if no legacy call was reconstructed; otherwise it
appends the call-request message, invokes the named function, appends the
result message, and recurses into submit with no new inputs. -/
theorem C9_function_call_dispatch (reg : FunctionRegistry) (fuel : Nat) (st : ChatState)
    (rest : List ServiceResponse) (inputs : List Input) (chunks : List Chunk)
    (he : (processStream chunks).errored = none)
    (hf : (processStream chunks).finish_reason = some "function_call") :
    ((processStream chunks).function_view = none →
      submit reg (fuel + 1) st (ServiceResponse.streamOk chunks :: rest) inputs
        = { state := { st with messages := st.messages ++ inputs.map Input.toMessage
              ++ (processStream chunks).appended },
            rest := rest, outcome := Outcome.error SubmitError.functionCallMissing }) ∧
    (∀ f, (processStream chunks).function_view = some f →
      submit reg (fuel + 1) st (ServiceResponse.streamOk chunks :: rest) inputs
        = submit reg fuel
            { st with messages := st.messages ++ inputs.map Input.toMessage
                ++ (processStream chunks).appended ++ [f.get_function_message]
                ++ [functionCalledMessage reg f] } rest []) := by
  constructor
  · intro hfv
    simp only [submit]
    rw [he]
    dsimp only
    rw [hf]
    rw [hfv]
    rw [Option.getD_some]
    rw [dispatch_eq_fc_missing reg _ _ _ rfl]
  · intro f hfv
    simp only [submit]
    rw [he]
    dsimp only
    rw [hf]
    rw [hfv]
    rw [Option.getD_some]
    rw [dispatch_eq_fc reg _ _ _ f rfl]

/-- C9 witness: the dispatch theorem applied to a legacy streamed turn naming
the function calc with streamed argument fragments, against a registry where
calc returns 42. -/
theorem C9_witness :
    (processStream [fcChunk { name := some "calc", arguments := none },
      fcChunk { name := none, arguments := some "(q)" },
      finishChunk "function_call"]).errored = none ∧
    (processStream [fcChunk { name := some "calc", arguments := none },
      fcChunk { name := none, arguments := some "(q)" },
      finishChunk "function_call"]).finish_reason = some "function_call" ∧
    submit (fun n => if n = "calc" then some (fun _ => "42") else none) 2 { messages := [] }
      (ServiceResponse.streamOk [fcChunk { name := some "calc", arguments := none },
        fcChunk { name := none, arguments := some "(q)" },
        finishChunk "function_call"] :: [ServiceResponse.streamOk [textChunk "done", finishChunk "stop"]])
      [Input.str "go"]
      = submit (fun n => if n = "calc" then some (fun _ => "42") else none) 1
          { messages := ([] : List Message) ++ ([Input.str "go"].map Input.toMessage)
              ++ (processStream [fcChunk { name := some "calc", arguments := none },
                  fcChunk { name := none, arguments := some "(q)" },
                  finishChunk "function_call"]).appended
              ++ [ToolArguments.get_function_message { id := "TBD", name := "calc", arguments := "(q)" }]
              ++ [functionCalledMessage (fun n => if n = "calc" then some (fun _ => "42") else none)
                  { id := "TBD", name := "calc", arguments := "(q)" }] }
          [ServiceResponse.streamOk [textChunk "done", finishChunk "stop"]] [] :=
  ⟨by decide, by decide,
    (C9_function_call_dispatch (fun n => if n = "calc" then some (fun _ => "42") else none) 1
      { messages := [] } [ServiceResponse.streamOk [textChunk "done", finishChunk "stop"]]
      [Input.str "go"]
      [fcChunk { name := some "calc", arguments := none },
       fcChunk { name := none, arguments := some "(q)" },
       finishChunk "function_call"] (by decide) (by decide)).2
      { id := "TBD", name := "calc", arguments := "(q)" } (by decide)⟩

theorem count_map_const (tcs : List FullToolCall) (p : Message) :
    (tcs.map (fun _ => p)).count p = tcs.length := by
  induction tcs with
  | nil => rfl
  | cons a r ih => simp [List.map_cons, List.count_cons, ih]

/-- C10: in the non-streaming path, when the message of the accepted choice carries
tool calls, the whole assistant message payload (message.model_dump()) is
appended to the history once per tool call, from inside the per-tool-call loop
- k copies for k tool calls, not one - after the optional text content message
and before any tool is invoked (the extractor reconstructs the calls but
produces no tool-result messages). -/
theorem C10_full_payload_appended_per_tool_call (m : FullMessage) (fr : String)
    (extra : List FullChoice) (tcs : List FullToolCall)
    (h : m.tool_calls = some tcs) :
    (processFullCompletion { choices := { message := m, finish_reason := fr } :: extra }).appended
      = (match m.content with | some c => [Message.assistant c] | none => [])
        ++ tcs.map (fun _ => Message.fullPayload m) ∧
    (processFullCompletion
      { choices := { message := m, finish_reason := fr } :: extra }).appended.count
        (Message.fullPayload m) = tcs.length ∧
    (processFullCompletion { choices := { message := m, finish_reason := fr } :: extra }).tool_calls
      = tcs.map (fun tc =>
          { id := tc.id, name := tc.function.name, arguments := tc.function.arguments }) := by
  have happ : (processFullCompletion
      { choices := { message := m, finish_reason := fr } :: extra }).appended
      = (match m.content with | some c => [Message.assistant c] | none => [])
        ++ tcs.map (fun _ => Message.fullPayload m) := by
    simp only [processFullCompletion]
    rw [h]
  have htc : (processFullCompletion
      { choices := { message := m, finish_reason := fr } :: extra }).tool_calls
      = tcs.map (fun tc =>
          { id := tc.id, name := tc.function.name, arguments := tc.function.arguments }) := by
    simp only [processFullCompletion]
    rw [h]
  refine ⟨happ, ?_, htc⟩
  rw [happ, List.count_append]
  have hc0 : ((match m.content with
      | some c => [Message.assistant c] | none => []) : List Message).count
        (Message.fullPayload m) = 0 := by
    cases m.content with
    | some c => simp [List.count_cons]
    | none => rfl
  rw [hc0, count_map_const]
  simp

/-- C10 witness: a non-streamed choice with text content and two tool calls,
whose full payload lands in the history twice. -/
theorem C10_witness :
    ({ content := some "t", function_call := none, tool_calls := some [{ id := "i1", function := { name := "f", arguments := "a" } }, { id := "i2", function := { name := "g", arguments := "b" } }] } : FullMessage).tool_calls
      = some [{ id := "i1", function := { name := "f", arguments := "a" } }, { id := "i2", function := { name := "g", arguments := "b" } }] ∧
    (processFullCompletion { choices := [{ message := { content := some "t", function_call := none, tool_calls := some [{ id := "i1", function := { name := "f", arguments := "a" } }, { id := "i2", function := { name := "g", arguments := "b" } }] }, finish_reason := "tool_calls" }] }).appended.count
        (Message.fullPayload { content := some "t", function_call := none, tool_calls := some [{ id := "i1", function := { name := "f", arguments := "a" } }, { id := "i2", function := { name := "g", arguments := "b" } }] })
      = ([{ id := "i1", function := { name := "f", arguments := "a" } }, { id := "i2", function := { name := "g", arguments := "b" } }] : List FullToolCall).length :=
  ⟨rfl,
    (C10_full_payload_appended_per_tool_call
      { content := some "t", function_call := none, tool_calls := some [{ id := "i1", function := { name := "f", arguments := "a" } }, { id := "i2", function := { name := "g", arguments := "b" } }] }
      "tool_calls" []
      [{ id := "i1", function := { name := "f", arguments := "a" } }, { id := "i2", function := { name := "g", arguments := "b" } }] rfl).2.1⟩

/-- C1 (code behaviour at the failing input): a default streaming submit whose
turn ends with terminal reason tool_calls and one reconstructed call (id a1,
name add) against a registry where add returns 3.  Each call is invoked in
creation order, its result message is appended, and submit recurses with no
new inputs (the second scripted response is consumed and the run ends
normally) - but the final history is exactly user input, tool result, then
the follow-up assistant text: it contains no tool-call request message of any
shape (no assistant tool-calls message and no full payload message), because
the assistant_tool_calls message built at line 349 of chat.py is discarded
instead of appended. -/
theorem C1_streaming_request_message_missing :
    submit (fun n => if n = "add" then some (fun _ => "3") else none) 2 { messages := [] }
      [ServiceResponse.streamOk [toolChunk [{ index := 0, id := some "a1", function := some { name := some "add", arguments := some "(x:1,y:2)" } }], finishChunk "tool_calls"],
       ServiceResponse.streamOk [textChunk "done", finishChunk "stop"]]
      [Input.str "hi"]
      = { state := { messages := [Message.user "hi", Message.toolResult "a1" "3", Message.assistant "done"], sleeps := [] },
          rest := [], outcome := Outcome.ok } ∧
    ((submit (fun n => if n = "add" then some (fun _ => "3") else none) 2 { messages := [] }
      [ServiceResponse.streamOk [toolChunk [{ index := 0, id := some "a1", function := some { name := some "add", arguments := some "(x:1,y:2)" } }], finishChunk "tool_calls"],
       ServiceResponse.streamOk [textChunk "done", finishChunk "stop"]]
      [Input.str "hi"]).state.messages.all fun msg =>
        (match msg with
         | Message.assistantToolCalls _ => false
         | Message.fullPayload _ => false
         | _ => true)) = true := by
  decide
